import Mathlib

/-!
# FieldVisitor (Trick interface code generator): type classification

A shallow embedding of `trick_source/codegen/Interface_Code_Gen/FieldVisitor.cpp`.

* `std::string` values are lists of characters (`Str`); the member functions the
  visitor uses (`find`, `erase`, `replace`, `find_last_of`, `compare`) are the
  functions of namespace `StdString`.
* `std::map` is a key-ordered association list (`StdMap`).
* The descriptor `fdes` is the record `FieldDescription`; every visitor method is a
  function from the descriptor (and, where it is touched, the process-wide state
  `World`) to the mutated descriptor together with the method's boolean result.
* The front-end's type nodes are the inductive type `Ty`; `TraverseType` is the
  pre-order walk in which `RecursiveASTVisitor` calls the `Visit*` methods.
-/

set_option autoImplicit false

/-- A `std::string`, as its sequence of characters. -/
abbrev Str := List Char

namespace StdString

/-- The value `std::string::npos` (`size_t` of 64 bits). -/
def npos : Nat := 2 ^ 64 - 1

/-- `s.find(pat)`: the least position at which `pat` occurs in `s`, or `none` for `npos`. -/
def find : Str → Str → Option Nat
  | [], pat => if pat = [] then some 0 else none
  | c :: s, pat =>
    if pat.isPrefixOf (c :: s) then some 0 else (find s pat).map (· + 1)

/-- `s.erase(pos, n)`. -/
def erase (s : Str) (pos n : Nat) : Str := s.take pos ++ s.drop (pos + n)

/-- `s.replace(pos, n, r)`; the count is clamped to the end of the string, as `drop` does. -/
def replace (s : Str) (pos n : Nat) (r : Str) : Str := s.take pos ++ r ++ s.drop (pos + n)

/-- `s.find_last_of(chars)`: the greatest position holding one of `chars`. -/
def find_last_of : Str → Str → Option Nat
  | [], _ => none
  | c :: s, chars =>
    match find_last_of s chars with
    | some i => some (i + 1)
    | none => if c ∈ chars then some 0 else none

/-- The test `s.compare(0, n, t) == 0` (written `!s.compare(0, n, t)` in the source):
the first `n` characters of `s`, fewer when `s` is shorter, are exactly `t`. -/
def compare_eq (s : Str) (n : Nat) (t : Str) : Bool := decide (s.take n = t)

/-- The order `std::less<std::string>` puts on keys: lexicographic on character codes. -/
def less : Str → Str → Bool
  | _, [] => false
  | [], _ :: _ => true
  | a :: s, b :: t => if a.toNat < b.toNat then true else if b.toNat < a.toNat then false else less s t

/-- The loop `while ((pos = s.find(pat)) != npos) s.erase(pos, n)`, run for at most `fuel`
rounds.  Every round shortens the string, so `s.length` rounds reach the exit
(`eraseWhile_exit`). -/
def eraseWhile (pat : Str) (n : Nat) : Nat → Str → Str
  | 0, s => s
  | fuel + 1, s =>
    match find s pat with
    | none => s
    | some pos => eraseWhile pat n fuel (erase s pos n)

/-- The loop `while ((pos = s.find(pat)) != npos) s.replace(pos, n, rep)`, run for at most
`fuel` rounds.  With `rep` shorter than the `n` characters it replaces every round shortens
the string, so `s.length` rounds reach the exit (`replaceWhile_exit`). -/
def replaceWhile (pat : Str) (n : Nat) (rep : Str) : Nat → Str → Str
  | 0, s => s
  | fuel + 1, s =>
    match find s pat with
    | none => s
    | some pos => replaceWhile pat n rep fuel (replace s pos n rep)

/-- The algorithm `std::replace(s.begin(), s.end(), old, new)`. -/
def std_replace (s : Str) (old new : Char) : Str := s.map (fun c => if c = old then new else c)

end StdString

/-- A `std::map<std::string, β>`: its entries in iteration (key) order. -/
abbrev StdMap (β : Type) := List (Str × β)

namespace StdMap

variable {β : Type}

/-- `m.find(k)`, with `none` for `m.end()`. -/
def find : StdMap β → Str → Option β
  | [], _ => none
  | (k', v) :: rest, k => if k' = k then some v else find rest k

/-- `m[k] = v`: overwrite the entry of `k`, or add it at its place in key order. -/
def assign : StdMap β → Str → β → StdMap β
  | [], k, v => [(k, v)]
  | (k', v') :: rest, k, v =>
    if k' = k then (k, v) :: rest
    else if StdString.less k k' then (k, v) :: (k', v') :: rest
    else (k', v') :: assign rest k v

/-- `m.insert(std::pair(k, v))`: add the entry unless the key is already there. -/
def insert (m : StdMap β) (k : Str) (v : β) : StdMap β :=
  match find m k with
  | some _ => m
  | none => assign m k v

/-- Reading `m[k]`: the stored value; a key that is absent is first added with the
default value `dflt`. -/
def subscript (m : StdMap β) (k : Str) (dflt : β) : β × StdMap β :=
  match find m k with
  | some v => (v, m)
  | none => (dflt, assign m k dflt)

end StdMap

/-- Modelled from the spec: the class `FieldDescription` (FieldDescription.hh/.cpp are not
among the sources).  One field per attribute that `FieldVisitor.cpp` reads or writes; the
dimension list is the spec's "ordered list of array dimensions (outer-to-inner)", with a
pointer level recorded as -1, and `io` is the IO mask (bit 0 output, bit 1 input). -/
structure FieldDescription where
  container_class : Str
  inherited : Bool
  name : Str
  file_name : Str
  io : Nat
  type_name : Str
  non_canonical_type_name : Str
  mangled_type_name : Str
  enum_string : Str
  array_dims : List Int
  is_bitfield : Bool
  bitfield_width : Nat
  bitfield_offset : Nat
  is_enum : Bool
  is_record : Bool
  is_stl : Bool
  has_stl_clear : Bool
  is_static : Bool
  field_offset : Nat
  field_width : Nat
  deriving DecidableEq, Repr

namespace FieldDescription

/-- Modelled from the spec: the mask of a member whose IO is unrestricted, both the
output bit and the input bit set. -/
def ioUnrestricted : Nat := 3

/-- Modelled from the spec: the constructor `FieldDescription(container_class, inherited)`
that `FieldVisitor::FieldVisitor` calls: a descriptor with nothing classified yet, no
dimension, no flag set and IO unrestricted. -/
def fresh (container_class : Str) (inherited : Bool) : FieldDescription :=
  { container_class := container_class, inherited := inherited, name := [], file_name := [],
    io := ioUnrestricted, type_name := [], non_canonical_type_name := [],
    mangled_type_name := [], enum_string := [], array_dims := [], is_bitfield := false,
    bitfield_width := 0, bitfield_offset := 0, is_enum := false, is_record := false,
    is_stl := false, has_stl_clear := false, is_static := false, field_offset := 0,
    field_width := 0 }

/-- The call `fdes->setIO(v)`. -/
@[simp] def setIO (d : FieldDescription) (v : Nat) : FieldDescription := { d with io := v }

/-- The call `fdes->setTypeName(s)`. -/
@[simp] def setTypeName (d : FieldDescription) (s : Str) : FieldDescription := { d with type_name := s }

/-- The call `fdes->setNonCanonicalTypeName(s)`. -/
@[simp] def setNonCanonicalTypeName (d : FieldDescription) (s : Str) : FieldDescription :=
  { d with non_canonical_type_name := s }

/-- The call `fdes->setMangledTypeName(s)`. -/
@[simp] def setMangledTypeName (d : FieldDescription) (s : Str) : FieldDescription :=
  { d with mangled_type_name := s }

/-- The call `fdes->setEnumString(s)`: the category of the member. -/
@[simp] def setEnumString (d : FieldDescription) (s : Str) : FieldDescription := { d with enum_string := s }

/-- The call `fdes->addArrayDim(n)`: one more entry at the inner end of the dimension list. -/
@[simp] def addArrayDim (d : FieldDescription) (n : Int) : FieldDescription :=
  { d with array_dims := d.array_dims ++ [n] }

/-- The call `fdes->setBitField(b)`. -/
@[simp] def setBitField (d : FieldDescription) (b : Bool) : FieldDescription := { d with is_bitfield := b }

/-- The call `fdes->setBitFieldWidth(w)`. -/
@[simp] def setBitFieldWidth (d : FieldDescription) (w : Nat) : FieldDescription :=
  { d with bitfield_width := w }

/-- Modelled from the spec: `fdes->calcBitfieldOffset()`, "width and intra-byte offset derived
together from declared width and byte offset"; the derivation itself is the parameter `offsetOf`. -/
@[simp] def calcBitfieldOffset (offsetOf : Nat → Nat → Nat) (d : FieldDescription) : FieldDescription :=
  { d with bitfield_offset := offsetOf d.field_offset d.bitfield_width }

/-- The call `fdes->setEnum(b)`. -/
@[simp] def setEnum (d : FieldDescription) (b : Bool) : FieldDescription := { d with is_enum := b }

/-- The call `fdes->setRecord(b)`. -/
@[simp] def setRecord (d : FieldDescription) (b : Bool) : FieldDescription := { d with is_record := b }

/-- The call `fdes->setSTL(b)`. -/
@[simp] def setSTL (d : FieldDescription) (b : Bool) : FieldDescription := { d with is_stl := b }

/-- The call `fdes->setSTLClear(b)`. -/
@[simp] def setSTLClear (d : FieldDescription) (b : Bool) : FieldDescription := { d with has_stl_clear := b }

/-- The call `fdes->setStatic(b)`. -/
@[simp] def setStatic (d : FieldDescription) (b : Bool) : FieldDescription := { d with is_static := b }

/-- The call `fdes->setFieldOffset(n)`. -/
@[simp] def setFieldOffset (d : FieldDescription) (n : Nat) : FieldDescription := { d with field_offset := n }

/-- The call `fdes->setFieldWidth(n)`. -/
@[simp] def setFieldWidth (d : FieldDescription) (n : Nat) : FieldDescription := { d with field_width := n }

end FieldDescription

/-! ## The front-end's nodes -/

/-- The sub-kinds `clang::BuiltinType::Kind` (the language-extension kinds left out). -/
inductive BuiltinKind
  | Void | Bool | Char_U | UChar | WChar_U | Char8 | Char16 | Char32 | UShort | UInt | ULong
  | ULongLong | UInt128 | Char_S | SChar | WChar_S | Short | Int | Long | LongLong | Int128
  | Half | Float | Double | LongDouble | Float16 | Float128 | NullPtr | Dependent
  deriving DecidableEq, Repr

/-- A `clang::BuiltinType`: its sub-kind and its printed spelling `desugar().getAsString()`. -/
structure BuiltinType where
  kind : BuiltinKind
  asString : Str
  deriving DecidableEq, Repr

/-- The front-end's `BuiltinType::isUnsignedInteger()`: the kinds from `Bool` to `UInt128`. -/
def BuiltinType.isUnsignedInteger (bt : BuiltinType) : Bool :=
  match bt.kind with
  | .Bool | .Char_U | .UChar | .WChar_U | .Char8 | .Char16 | .Char32 | .UShort | .UInt | .ULong
  | .ULongLong | .UInt128 => true
  | _ => false

/-- A `clang::EnumType`: its printed spelling `desugar().getAsString()`. -/
structure EnumType where
  asString : Str
  deriving DecidableEq, Repr

/-- What `VisitRecordType` asks of the declaration `rt->getDecl()`. -/
structure RecordDecl where
  /-- The result of `getQualifiedNameAsString()`. -/
  qualifiedName : Str
  /-- Whether `getDeclName()` is a name (the record is not anonymous). -/
  hasDeclName : Bool
  /-- The declaration `getTypedefNameForAnonDecl()`, as its qualified name; `none` for null. -/
  typedefNameForAnonDecl : Option Str
  /-- The declaration `getDefinition()`: `none` for null, else whether
  `ClassTemplateSpecializationDecl::classof` holds of it. -/
  definitionIsTemplateSpecialization : Option Bool
  deriving DecidableEq, Repr

/-- The front-end's `TagDecl::hasNameForLinkage()`: a declared name or a typedef name. -/
def RecordDecl.hasNameForLinkage (rd : RecordDecl) : Bool :=
  rd.hasDeclName || rd.typedefNameForAnonDecl.isSome

/-- A `clang::RecordType`: its declaration and its printed spelling `desugar().getAsString()`. -/
structure RecordType where
  decl : RecordDecl
  asString : Str
  deriving DecidableEq, Repr

/-- The type nodes the visitor has a method for, each with the child node the traversal
descends into.  `isReferenceType()` holds of the `reference` nodes only. -/
inductive Ty
  | builtin (bt : BuiltinType)
  | constantArray (size : Nat) (element : Ty)
  | pointer (pointee : Ty)
  | reference (pointee : Ty)
  | enum (et : EnumType)
  | record (rt : RecordType)
  deriving DecidableEq, Repr

/-- A `clang::QualType` as `VisitFieldDecl` sees it: the spelling `getAsString()`, whether it
`isCanonical()`, and `getCanonicalType()` (the type itself when it is canonical). -/
structure QualType where
  asString : Str
  isCanonical : Bool
  canonicalType : Ty
  deriving DecidableEq, Repr

/-- A `clang::FieldDecl`: offset and type size in bits, the bitfield data and the type. -/
structure FieldDecl where
  fieldOffset : Nat
  isBitField : Bool
  bitWidthValue : Nat
  type : QualType
  typeSize : Nat
  deriving DecidableEq, Repr

/-- A `clang::VarDecl`: the three queries `VisitVarDecl` makes. -/
structure VarDecl where
  isStaticDataMember : Bool
  isConstQualified : Bool
  hasInit : Bool
  deriving DecidableEq, Repr

/-! ## The process-wide state -/

/-- The state shared by all visitors: the static member `processed_templates`, and the
calls made on the emission collaborator, each `pa.printClass(cv)` recorded as the name and
the mangled type name of the class data `cv` it was given. -/
structure World where
  processed_templates : StdMap Str
  printClass_calls : List (Str × Str)
  deriving DecidableEq, Repr

/-- A member of a template instantiation whose classification reaches `ProcessTemplate`:
the containing class and the name of the member's descriptor, and the spelling `in_name`
its record type is processed under. -/
structure TemplateField where
  container_class : Str
  name : Str
  in_name : Str
  deriving DecidableEq, Repr

/-- The instantiations of the translation unit: for the spelling of each, the members that
`template_spec_cvis.TraverseCXXRecordDecl(crd)` hands to `ProcessTemplate`, in order.  The
references among instantiations are arbitrary (cyclic and self-references included). -/
abbrev Instantiations := List (Str × List TemplateField)

/-- The template-instantiation members of the instantiation spelled `in_name`. -/
def Instantiations.fieldsOf (insts : Instantiations) (in_name : Str) : List TemplateField :=
  (StdMap.find insts in_name).getD []

/-! ## The visitor -/

namespace FieldVisitor

/-- The method `FieldVisitor::VisitType`: a reference type sets the IO mask to 0. -/
def VisitType (isReferenceType : Bool) (fdes : FieldDescription) : Bool × FieldDescription :=
  let fdes := if isReferenceType then fdes.setIO 0 else fdes
  (true, fdes)

/-- The method `FieldVisitor::VisitBuiltinType`. -/
def VisitBuiltinType (bt : BuiltinType) (fdes : FieldDescription) : Bool × FieldDescription :=
  let fdes := fdes.setTypeName bt.asString
  if fdes.is_bitfield then
    let fdes :=
      if bt.isUnsignedInteger then fdes.setEnumString "TRICK_UNSIGNED_BITFIELD".toList
      else fdes.setEnumString "TRICK_BITFIELD".toList
    let fdes := if bt.kind = BuiltinKind.Bool then fdes.setTypeName "bool".toList else fdes
    (true, fdes)
  else
    let fdes :=
      match bt.kind with
      | .Bool => (fdes.setEnumString "TRICK_BOOLEAN".toList).setTypeName "bool".toList
      | .Char_S | .SChar => fdes.setEnumString "TRICK_CHARACTER".toList
      | .UChar | .Char_U => fdes.setEnumString "TRICK_UNSIGNED_CHARACTER".toList
      | .WChar_U | .WChar_S => fdes.setEnumString "TRICK_WCHAR".toList
      | .Short => fdes.setEnumString "TRICK_SHORT".toList
      | .UShort | .Char16 => fdes.setEnumString "TRICK_UNSIGNED_SHORT".toList
      | .Int => fdes.setEnumString "TRICK_INTEGER".toList
      | .UInt => fdes.setEnumString "TRICK_UNSIGNED_INTEGER".toList
      | .Long => fdes.setEnumString "TRICK_LONG".toList
      | .ULong => fdes.setEnumString "TRICK_UNSIGNED_LONG".toList
      | .LongLong => fdes.setEnumString "TRICK_LONG_LONG".toList
      | .ULongLong => fdes.setEnumString "TRICK_UNSIGNED_LONG_LONG".toList
      | .Float => fdes.setEnumString "TRICK_FLOAT".toList
      | .Double => fdes.setEnumString "TRICK_DOUBLE".toList
      | _ => fdes.setEnumString "TRICK_VOID".toList
    (true, fdes)

/-- The method `FieldVisitor::VisitConstantArrayType`; `size` is `cat->getSize().getZExtValue()`. -/
def VisitConstantArrayType (size : Nat) (fdes : FieldDescription) : Bool × FieldDescription :=
  (true, fdes.addArrayDim (size : Int))

/-- The method `FieldVisitor::VisitPointerType`. -/
def VisitPointerType (fdes : FieldDescription) : Bool × FieldDescription :=
  (true, fdes.addArrayDim (-1))

/-- The method `FieldVisitor::VisitEnumType`.  The count `last_pos - pos + 1` is computed in
`size_t`, with `npos` for a failed `find_last_of`. -/
def VisitEnumType (et : EnumType) (fdes : FieldDescription) : Bool × FieldDescription :=
  let enum_type_name := et.asString
  let enum_type_name :=
    match StdString.find enum_type_name "enum ".toList with
    | some pos => StdString.erase enum_type_name pos 5
    | none => enum_type_name
  let enum_type_name :=
    match StdString.find enum_type_name "<".toList with
    | some pos =>
      let last_pos := (StdString.find_last_of enum_type_name ">::".toList).getD StdString.npos
      StdString.replace enum_type_name pos ((last_pos + 2 ^ 64 - pos + 1) % 2 ^ 64) "__".toList
    | none => enum_type_name
  let fdes := fdes.setMangledTypeName []
  let fdes := fdes.setTypeName enum_type_name
  let fdes := fdes.setEnumString "TRICK_ENUMERATED".toList
  let fdes := fdes.setEnum true
  (true, fdes)

/-- The function `mangle_string`: six passes of `std::replace`. -/
def mangle_string (in_name : Str) : Str :=
  let mangled_name := in_name
  let mangled_name := StdString.std_replace mangled_name '<' '_'
  let mangled_name := StdString.std_replace mangled_name '>' '_'
  let mangled_name := StdString.std_replace mangled_name ' ' '_'
  let mangled_name := StdString.std_replace mangled_name ',' '_'
  let mangled_name := StdString.std_replace mangled_name ':' '_'
  let mangled_name := StdString.std_replace mangled_name '*' '_'
  mangled_name

/-- The walk `template_spec_cvis.TraverseCXXRecordDecl(crd)` as far as the shared state goes:
each template-instantiation member gets a visitor with a descriptor of its own, which
`visit` (the method `ProcessTemplate`) processes; `none` when a nested call has no result. -/
def traverseFields (visit : Str → FieldDescription → World → Option (Bool × FieldDescription × World)) :
    List TemplateField → World → Option World
  | [], w => some w
  | f :: fs, w =>
    match visit f.in_name { FieldDescription.fresh f.container_class false with name := f.name } w with
    | none => none
    | some r => traverseFields visit fs r.2.2

/-- The method `FieldVisitor::ProcessTemplate`, with `fuel` bounding the depth of nested
instantiations (`none` when it runs out).  The call `fdes->getNamespacesAndClasses` fills
the qualification lists of the descriptor, which the visitor never reads. -/
def ProcessTemplateFuel (insts : Instantiations) :
    Nat → Str → FieldDescription → World → Option (Bool × FieldDescription × World)
  | 0, _, _, _ => none
  | fuel + 1, in_name, fdes, w =>
    let body : Option World :=
      if (StdMap.find w.processed_templates in_name).isNone then
        let mangled_name := mangle_string in_name
        let pt := StdMap.assign w.processed_templates in_name
          (fdes.container_class ++ "_".toList ++ fdes.name ++ "_".toList ++ mangled_name)
        let cv_mangled := StdMap.subscript pt in_name []
        let w := { w with processed_templates := cv_mangled.2 }
        match traverseFields (ProcessTemplateFuel insts fuel) (insts.fieldsOf in_name) w with
        | none => none
        | some w => some { w with printClass_calls := w.printClass_calls ++ [(in_name, cv_mangled.1)] }
      else some w
    match body with
    | none => none
    | some w =>
      let stored := StdMap.subscript w.processed_templates in_name []
      let fdes := fdes.setMangledTypeName stored.1
      let fdes := fdes.setEnumString "TRICK_STRUCTURED".toList
      let fdes := fdes.setRecord true
      some (false, fdes, { w with processed_templates := stored.2 })

/-- The method `FieldVisitor::ProcessTemplate`: every nested call that misses adds an
instantiation of `insts` to the registry, so the depth never exceeds `insts.length`
(`ProcessTemplate_returns`). -/
def ProcessTemplate (insts : Instantiations) (in_name : Str) (fdes : FieldDescription) (w : World) :
    Option (Bool × FieldDescription × World) :=
  ProcessTemplateFuel insts (insts.length + 1) in_name fdes w

/-- The function `init_stl_classes`: thirty-three insertions into an empty map. -/
def init_stl_classes : StdMap Bool :=
  let my_map : StdMap Bool := []
  let my_map := my_map.insert "std::deque".toList true
  let my_map := my_map.insert "std::list".toList true
  let my_map := my_map.insert "std::map".toList true
  let my_map := my_map.insert "std::multiset".toList true
  let my_map := my_map.insert "std::multimap".toList true
  let my_map := my_map.insert "std::pair".toList false
  let my_map := my_map.insert "std::priority_queue".toList false
  let my_map := my_map.insert "std::queue".toList false
  let my_map := my_map.insert "std::set".toList true
  let my_map := my_map.insert "std::stack".toList false
  let my_map := my_map.insert "std::vector".toList true
  let my_map := my_map.insert "std::__1::deque".toList true
  let my_map := my_map.insert "std::__1::list".toList true
  let my_map := my_map.insert "std::__1::map".toList true
  let my_map := my_map.insert "std::__1::multiset".toList true
  let my_map := my_map.insert "std::__1::multimap".toList true
  let my_map := my_map.insert "std::__1::pair".toList false
  let my_map := my_map.insert "std::__1::priority_queue".toList false
  let my_map := my_map.insert "std::__1::queue".toList false
  let my_map := my_map.insert "std::__1::set".toList true
  let my_map := my_map.insert "std::__1::stack".toList false
  let my_map := my_map.insert "std::__1::vector".toList true
  let my_map := my_map.insert "std::__cxx11::deque".toList true
  let my_map := my_map.insert "std::__cxx11::list".toList true
  let my_map := my_map.insert "std::__cxx11::map".toList true
  let my_map := my_map.insert "std::__cxx11::multiset".toList true
  let my_map := my_map.insert "std::__cxx11::multimap".toList true
  let my_map := my_map.insert "std::__cxx11::pair".toList false
  let my_map := my_map.insert "std::__cxx11::priority_queue".toList false
  let my_map := my_map.insert "std::__cxx11::queue".toList false
  let my_map := my_map.insert "std::__cxx11::set".toList true
  let my_map := my_map.insert "std::__cxx11::stack".toList false
  let my_map := my_map.insert "std::__cxx11::vector".toList true
  my_map

/-- The static table `stl_classes`. -/
def stl_classes : StdMap Bool := init_stl_classes

/-- The normalization of the printed spelling at the head of `VisitRecordType`: the two
keyword loops, the single repair of `<_Bool` and the loop repairing ` _Bool`. -/
def normalizeSpelling (printed : Str) : Str :=
  let tst_string := printed
  let tst_string := StdString.eraseWhile "class ".toList 6 tst_string.length tst_string
  let tst_string := StdString.eraseWhile "struct ".toList 7 tst_string.length tst_string
  let tst_string :=
    match StdString.find tst_string "<_Bool".toList with
    | some pos => StdString.replace tst_string pos 6 "<bool".toList
    | none => tst_string
  let tst_string := StdString.replaceWhile " _Bool".toList 6 " bool".toList tst_string.length tst_string
  tst_string

/-- The loop over `stl_classes` in `VisitRecordType`: the first entry, in the map's order,
whose key `tst_string` starts with. -/
def findStlClass (tst_string : Str) : Option (Str × Bool) :=
  stl_classes.find? (fun it => StdString.compare_eq tst_string it.1.length it.1)

/-- The method `FieldVisitor::VisitRecordType`. -/
def VisitRecordType (insts : Instantiations) (rt : RecordType) (fdes : FieldDescription) (w : World) :
    Option (Bool × FieldDescription × World) :=
  let type_name := rt.decl.qualifiedName
  if type_name = "std::basic_string".toList || type_name = "std::__1::basic_string".toList
      || type_name = "std::__cxx11::basic_string".toList then
    let fdes := fdes.setEnumString "TRICK_STRING".toList
    let fdes := fdes.setTypeName "std::string".toList
    some (false, fdes, w)
  else
    let tst_string := normalizeSpelling rt.asString
    if StdString.compare_eq tst_string 5 "std::".toList then
      match findStlClass tst_string with
      | some it =>
        let fdes := fdes.setEnumString "TRICK_STL".toList
        let fdes := fdes.setSTL true
        let fdes := fdes.setTypeName tst_string
        let fdes := fdes.setSTLClear it.2
        let fdes := fdes.setMangledTypeName fdes.non_canonical_type_name
        some (false, fdes, w)
      | none => some (false, fdes.setIO 0, w)
    else if rt.decl.definitionIsTemplateSpecialization = some true then
      ProcessTemplate insts tst_string fdes w
    else
      let fdes :=
        if rt.decl.hasNameForLinkage then
          if rt.decl.hasDeclName then fdes.setTypeName type_name
          else fdes.setTypeName (rt.decl.typedefNameForAnonDecl.getD [])
        else fdes.setIO 0
      let fdes := fdes.setEnumString "TRICK_STRUCTURED".toList
      let fdes := fdes.setRecord true
      some (false, fdes, w)

/-- The method `FieldVisitor::VisitVarDecl`. -/
def VisitVarDecl (v : VarDecl) (fdes : FieldDescription) : Bool × FieldDescription :=
  let fdes := fdes.setStatic v.isStaticDataMember
  let fdes :=
    if v.isStaticDataMember && v.isConstQualified && v.hasInit then fdes.setIO 0
    else if v.isStaticDataMember && v.isConstQualified then fdes.setIO (fdes.io &&& 1)
    else fdes
  (true, fdes)

/-- The walk `RecursiveASTVisitor::TraverseType` over a type: at each node `VisitType` and
then the method of the node's class, the walk ending with `false` as soon as a method
returns `false`, else going on into the child node. -/
def TraverseType (insts : Instantiations) : Ty → FieldDescription → World →
    Option (Bool × FieldDescription × World)
  | .builtin bt, fdes, w =>
    let r := VisitType false fdes
    let r := VisitBuiltinType bt r.2
    some (r.1, r.2, w)
  | .constantArray size element, fdes, w =>
    let r := VisitType false fdes
    let r := VisitConstantArrayType size r.2
    TraverseType insts element r.2 w
  | .pointer pointee, fdes, w =>
    let r := VisitType false fdes
    let r := VisitPointerType r.2
    TraverseType insts pointee r.2 w
  | .reference pointee, fdes, w =>
    let r := VisitType true fdes
    TraverseType insts pointee r.2 w
  | .enum et, fdes, w =>
    let r := VisitType false fdes
    let r := VisitEnumType et r.2
    some (r.1, r.2, w)
  | .record rt, fdes, w =>
    let r := VisitType false fdes
    VisitRecordType insts rt r.2 w

/-- The method `FieldVisitor::VisitFieldDecl`. -/
def VisitFieldDecl (offsetOf : Nat → Nat → Nat) (insts : Instantiations) (field : FieldDecl)
    (fdes : FieldDescription) (w : World) : Option (Bool × FieldDescription × World) :=
  let fdes := fdes.setFieldOffset (field.fieldOffset / 8)
  let fdes := fdes.setBitField field.isBitField
  let fdes :=
    if fdes.is_bitfield then
      (fdes.setBitFieldWidth field.bitWidthValue).calcBitfieldOffset offsetOf
    else fdes
  let qt := field.type
  let fdes := fdes.setFieldWidth (field.typeSize / 8)
  if !qt.isCanonical then
    let fdes := fdes.setNonCanonicalTypeName qt.asString
    let ct := qt.canonicalType
    match TraverseType insts ct fdes w with
    | none => none
    | some r => some (false, r.2.1, r.2.2)
  else
    some (true, fdes, w)

/-- The classification of a field once its source binding is done: `VisitFieldDecl`, after
which `RecursiveASTVisitor::TraverseFieldDecl` walks the declared type, unless the method
returned `false`. -/
def classifyField (offsetOf : Nat → Nat → Nat) (insts : Instantiations) (field : FieldDecl)
    (fdes : FieldDescription) (w : World) : Option (Bool × FieldDescription × World) :=
  match VisitFieldDecl offsetOf insts field fdes w with
  | none => none
  | some r => if r.1 then TraverseType insts field.type.canonicalType r.2.1 r.2.2 else some r

end FieldVisitor

/-! ## Notions the statements use -/

namespace FieldVisitor

/-- The identifier `ProcessTemplate` generates on a miss. -/
def generatedId (fdes : FieldDescription) (in_name : Str) : Str :=
  fdes.container_class ++ "_".toList ++ fdes.name ++ "_".toList ++ mangle_string in_name

/-- The last three statements of `ProcessTemplate`, for the stored identifier `stored`. -/
def finishTemplate (fdes : FieldDescription) (stored : Str) : FieldDescription :=
  ((fdes.setMangledTypeName stored).setEnumString "TRICK_STRUCTURED".toList).setRecord true

/-- The identifier the registry holds for `in_name` once `ProcessTemplate` has run for the
descriptor `fdes`: the one already stored, else the one generated. -/
def storedId (w : World) (fdes : FieldDescription) (in_name : Str) : Str :=
  (StdMap.find w.processed_templates in_name).getD (generatedId fdes in_name)

/-- The number of instantiations of `insts` the registry has no entry for. -/
def missing (insts : Instantiations) (pt : StdMap Str) : Nat :=
  insts.countP (fun e => (StdMap.find pt e.1).isNone)

/-- The state `w2` comes after `w1`: every entry is kept, and the emissions added are all
for spellings that had no entry in `w1`. -/
structure Extends (w1 w2 : World) : Prop where
  keeps : ∀ k v, StdMap.find w1.processed_templates k = some v →
    StdMap.find w2.processed_templates k = some v
  calls : ∃ added, w2.printClass_calls = w1.printClass_calls ++ added ∧
    ∀ e ∈ added, StdMap.find w1.processed_templates e.1 = none

/-- The number of calls `pa.printClass` has received for the class named `in_name`. -/
def emissionsOf (w : World) (in_name : Str) : Nat :=
  w.printClass_calls.countP (fun e => e.1 = in_name)

end FieldVisitor

/-- A leaf type: a builtin, enumerated or record node. -/
def Ty.isLeaf : Ty → Bool
  | .builtin _ => true
  | .enum _ => true
  | .record _ => true
  | _ => false

/-- The number of array and pointer levels of a type. -/
def Ty.depth : Ty → Nat
  | .constantArray _ element => element.depth + 1
  | .pointer pointee => pointee.depth + 1
  | .reference pointee => pointee.depth
  | _ => 0

/-- The dimension list the spec gives a type: from the outermost level inwards, the literal
element count of each array level and -1 for each pointer level. -/
def Ty.levels : Ty → List Int
  | .constantArray size element => (size : Int) :: element.levels
  | .pointer pointee => (-1) :: pointee.levels
  | .reference pointee => pointee.levels
  | _ => []

/-- The array type `leaf [n1][n2]...`, for the sizes `n1, n2, ...` in declaration order. -/
def Ty.arrayChain : List Nat → Ty → Ty
  | [], leaf => leaf
  | n :: sizes, leaf => .constantArray n (Ty.arrayChain sizes leaf)

/-- The pointer type with `n` levels of indirection over `leaf`. -/
def Ty.pointerChain : Nat → Ty → Ty
  | 0, leaf => leaf
  | n + 1, leaf => .pointer (Ty.pointerChain n leaf)

/-- One classification operation of the visitor, with its argument. -/
inductive VisitorOp
  | visitType (isReferenceType : Bool)
  | visitBuiltinType (bt : BuiltinType)
  | visitConstantArrayType (size : Nat)
  | visitPointerType
  | visitEnumType (et : EnumType)
  | visitRecordType (rt : RecordType)
  | processTemplate (in_name : Str)
  | visitVarDecl (v : VarDecl)
  deriving DecidableEq, Repr

namespace FieldVisitor

/-- Running one operation on the descriptor and the shared state. -/
def runOp (insts : Instantiations) (op : VisitorOp) (fdes : FieldDescription) (w : World) :
    Option (FieldDescription × World) :=
  match op with
  | .visitType isReferenceType => some ((VisitType isReferenceType fdes).2, w)
  | .visitBuiltinType bt => some ((VisitBuiltinType bt fdes).2, w)
  | .visitConstantArrayType size => some ((VisitConstantArrayType size fdes).2, w)
  | .visitPointerType => some ((VisitPointerType fdes).2, w)
  | .visitEnumType et => some ((VisitEnumType et fdes).2, w)
  | .visitRecordType rt => (VisitRecordType insts rt fdes w).map (fun r => r.2)
  | .processTemplate in_name => (ProcessTemplate insts in_name fdes w).map (fun r => r.2)
  | .visitVarDecl v => some ((VisitVarDecl v fdes).2, w)

/-- Running a sequence of operations, one after the other. -/
def runOps (insts : Instantiations) : List VisitorOp → FieldDescription → World →
    Option (FieldDescription × World)
  | [], fdes, w => some (fdes, w)
  | op :: ops, fdes, w =>
    match runOp insts op fdes w with
    | none => none
    | some r => runOps insts ops r.1 r.2

/-- The table of the spec for a builtin that is not a bitfield: sub-kind and category. -/
def builtinCategories : List (BuiltinKind × Str) :=
  [ (.Bool, "TRICK_BOOLEAN".toList),
    (.Char_S, "TRICK_CHARACTER".toList), (.SChar, "TRICK_CHARACTER".toList),
    (.UChar, "TRICK_UNSIGNED_CHARACTER".toList), (.Char_U, "TRICK_UNSIGNED_CHARACTER".toList),
    (.WChar_U, "TRICK_WCHAR".toList), (.WChar_S, "TRICK_WCHAR".toList),
    (.Short, "TRICK_SHORT".toList),
    (.UShort, "TRICK_UNSIGNED_SHORT".toList), (.Char16, "TRICK_UNSIGNED_SHORT".toList),
    (.Int, "TRICK_INTEGER".toList),
    (.UInt, "TRICK_UNSIGNED_INTEGER".toList),
    (.Long, "TRICK_LONG".toList),
    (.ULong, "TRICK_UNSIGNED_LONG".toList),
    (.LongLong, "TRICK_LONG_LONG".toList),
    (.ULongLong, "TRICK_UNSIGNED_LONG_LONG".toList),
    (.Float, "TRICK_FLOAT".toList),
    (.Double, "TRICK_DOUBLE".toList) ]

end FieldVisitor

namespace StdString

/-- No occurrence of `pat` can begin inside `fixed`, whatever text follows `fixed`: at no
position of `fixed` does the rest of `fixed` agree with `pat` as far as both go. -/
def noMatchIn (pat : Str) : Str → Bool
  | [] => true
  | c :: xs => !(pat.isPrefixOf (c :: xs) || (c :: xs).isPrefixOf pat) && noMatchIn pat xs

end StdString

/-- The record is not one of the string-like wrappers `VisitRecordType` tests for first. -/
def RecordDecl.notStringLike (rd : RecordDecl) : Prop :=
  rd.qualifiedName ≠ "std::basic_string".toList ∧
  rd.qualifiedName ≠ "std::__1::basic_string".toList ∧
  rd.qualifiedName ≠ "std::__cxx11::basic_string".toList

namespace FieldVisitor

/-- The container names of the spec, each with its clear-support flag. -/
def containerNames : List (Str × Bool) :=
  [ ("deque".toList, true), ("list".toList, true), ("map".toList, true),
    ("multiset".toList, true), ("multimap".toList, true), ("pair".toList, false),
    ("priority_queue".toList, false), ("queue".toList, false), ("set".toList, true),
    ("stack".toList, false), ("vector".toList, true) ]

/-- The three namespace spellings under which a container is recognized. -/
def namespaceSpellings : List Str :=
  [ "std::".toList, "std::__1::".toList, "std::__cxx11::".toList ]

/-- A template-argument suffix: nothing, or text that opens with the angle bracket. -/
def isTemplateArgumentSuffix (suffix : Str) : Bool :=
  match suffix with
  | [] => true
  | c :: _ => c = '<'

/-- The container name of a spelling: the text before the first angle bracket, the whole
spelling when it has none. -/
def containerNameOf (spelling : Str) : Str := spelling.takeWhile (fun c => c ≠ '<')

end FieldVisitor

namespace FieldVisitor

/-- A character allowed in a generated symbol: a letter, a digit or the underscore. -/
def isSymbolChar (c : Char) : Bool := c.isAlphanum || c = '_'

/-- The character `mangle_string` puts for `c`: an underscore for each of the six
characters it replaces, `c` itself otherwise. -/
def sanitized (c : Char) : Char :=
  if c = '<' ∨ c = '>' ∨ c = ' ' ∨ c = ',' ∨ c = ':' ∨ c = '*' then '_' else c

end FieldVisitor
/-- The same field declared directly with its canonical type, spelled `spelling`. -/
def FieldDecl.withCanonicalType (field : FieldDecl) (spelling : Str) : FieldDecl :=
  { field with type := { asString := spelling, isCanonical := true,
                         canonicalType := field.type.canonicalType } }

namespace FieldVisitor

/-- The descriptor as `VisitFieldDecl` has it when it turns to the type of the field: the
offset, the bitfield data and the width are set. -/
def preparedDescriptor (offsetOf : Nat → Nat → Nat) (field : FieldDecl)
    (fdes : FieldDescription) : FieldDescription :=
  let fdes := fdes.setFieldOffset (field.fieldOffset / 8)
  let fdes := fdes.setBitField field.isBitField
  let fdes :=
    if fdes.is_bitfield then
      (fdes.setBitFieldWidth field.bitWidthValue).calcBitfieldOffset offsetOf
    else fdes
  fdes.setFieldWidth (field.typeSize / 8)

end FieldVisitor
namespace FieldVisitor

/-- How a classification may change the flags of a descriptor: not at all, or by setting
the enum flag alone, the record flag alone, or the STL flag together with the
clear-support flag. -/
def FlagsStep (before after : FieldDescription) : Prop :=
  (after.is_enum = before.is_enum ∧ after.is_record = before.is_record ∧
    after.is_stl = before.is_stl ∧ after.has_stl_clear = before.has_stl_clear) ∨
  (after.is_enum = true ∧ after.is_record = before.is_record ∧
    after.is_stl = before.is_stl ∧ after.has_stl_clear = before.has_stl_clear) ∨
  (after.is_record = true ∧ after.is_enum = before.is_enum ∧
    after.is_stl = before.is_stl ∧ after.has_stl_clear = before.has_stl_clear) ∨
  (after.is_stl = true ∧ after.is_enum = before.is_enum ∧
    after.is_record = before.is_record)

end FieldVisitor
namespace FieldVisitor

/-- The state after the statement `processed_templates[in_name] = id` of `ProcessTemplate`. -/
def storeEntry (w : World) (in_name id : Str) : World :=
  { w with processed_templates := StdMap.assign w.processed_templates in_name id }

/-- The state `w2` comes from `w1` by growth of the registry: every entry is kept, and every
entry that is new holds the identifier generated for its own spelling from some descriptor. -/
structure Grows (w1 w2 : World) : Prop where
  keeps : ∀ k v, StdMap.find w1.processed_templates k = some v →
    StdMap.find w2.processed_templates k = some v
  added : ∀ k v, StdMap.find w2.processed_templates k = some v →
    StdMap.find w1.processed_templates k = some v ∨ ∃ d, v = generatedId d k

/-- The registry states reachable from the empty registry by calls to `ProcessTemplate`,
for arbitrary spellings and descriptors (containing-class and member names). -/
inductive Reachable (insts : Instantiations) : World → Prop
  | empty : Reachable insts ⟨[], []⟩
  | call (w : World) (in_name : Str) (fdes : FieldDescription)
      (r : Bool × FieldDescription × World) :
      Reachable insts w → ProcessTemplate insts in_name fdes w = some r →
      Reachable insts r.2.2

/-- The states in which a visit can begin during a traversal that started in state `w0`:
`w0` itself, the state a call to `ProcessTemplate` returns, and the state a call that
misses has stored its entry in, where the traversal of its own members begins. -/
inductive NestedState (insts : Instantiations) (w0 : World) : World → Prop
  | start : NestedState insts w0 w0
  | returned (w : World) (fuel : Nat) (in_name : Str) (fdes : FieldDescription)
      (r : Bool × FieldDescription × World) :
      NestedState insts w0 w → ProcessTemplateFuel insts fuel in_name fdes w = some r →
      NestedState insts w0 r.2.2
  | entered (w : World) (in_name : Str) (fdes : FieldDescription) :
      NestedState insts w0 w → StdMap.find w.processed_templates in_name = none →
      NestedState insts w0 (storeEntry w in_name (generatedId fdes in_name))

end FieldVisitor

namespace StdString

/-- A character that can continue an identifier: a letter, a digit or the underscore. -/
def isIdentChar (c : Char) : Bool := c.isAlphanum || c = '_'

/-- Whether `kw` stands in `s` as a whole token when `before` is the character in front of
`s` (`none` at the start of the spelling): at some position `s` goes on with `kw`, the
character in front is no identifier character, and neither is the character after `kw`. -/
def hasTokenAfter (kw : Str) : Option Char → Str → Bool
  | _, [] => false
  | before, c :: s =>
    (kw.isPrefixOf (c :: s) && !(before.any isIdentChar)
        && !(((c :: s).drop kw.length).head?.any isIdentChar))
      || hasTokenAfter kw (some c) s

/-- Whether the keyword `kw` occurs in the spelling `s` as a whole token. -/
def hasKeywordToken (kw s : Str) : Bool := hasTokenAfter kw none s

end StdString

namespace FieldVisitor

/-- The keyword-stripping step of `VisitRecordType`: the loop that erases every "class "
and then the loop that erases every "struct ", the first two steps of `normalizeSpelling`. -/
def stripKeywords (printed : Str) : Str :=
  let tst_string := printed
  let tst_string := StdString.eraseWhile "class ".toList 6 tst_string.length tst_string
  let tst_string := StdString.eraseWhile "struct ".toList 7 tst_string.length tst_string
  tst_string

end FieldVisitor

/-! # Lemmas and theorems -/

/-! ## The registry: lookups, and the bound on nested instantiations -/

namespace StdMap

variable {β : Type}

theorem find_assign_self (m : StdMap β) (k : Str) (v : β) : find (assign m k v) k = some v := by
  induction m with
  | nil => simp [assign, find]
  | cons e rest ih =>
    obtain ⟨k', v'⟩ := e
    by_cases h : k' = k
    · simp [assign, find, h]
    · by_cases hl : StdString.less k k' = true
      · simp [assign, find, h, hl]
      · simp [assign, find, h, hl, ih]

theorem find_assign_ne (m : StdMap β) (k k' : Str) (v : β) (hne : k' ≠ k) :
    find (assign m k v) k' = find m k' := by
  induction m with
  | nil => simp [assign, find, Ne.symm hne]
  | cons e rest ih =>
    obtain ⟨k0, v0⟩ := e
    by_cases h : k0 = k
    · subst h
      simp [assign, find, Ne.symm hne]
    · by_cases hl : StdString.less k k0 = true
      · simp [assign, find, h, hl, Ne.symm hne]
      · simp [assign, find, h, hl, ih]

theorem subscript_of_find {m : StdMap β} {k : Str} {v : β} (dflt : β) (h : find m k = some v) :
    subscript m k dflt = (v, m) := by
  simp [subscript, h]

end StdMap

namespace FieldVisitor

theorem Extends.refl (w : World) : Extends w w :=
  ⟨fun _ _ h => h, [], by simp, by simp⟩

theorem Extends.trans {w1 w2 w3 : World} (h12 : Extends w1 w2) (h23 : Extends w2 w3) :
    Extends w1 w3 := by
  refine ⟨fun k v h => h23.keeps k v (h12.keeps k v h), ?_⟩
  obtain ⟨a, ha, hA⟩ := h12.calls
  obtain ⟨b, hb, hB⟩ := h23.calls
  refine ⟨a ++ b, by rw [hb, ha, List.append_assoc], ?_⟩
  intro e he
  rcases List.mem_append.mp he with h | h
  · exact hA e h
  · cases hf : StdMap.find w1.processed_templates e.1 with
    | none => rfl
    | some v => have := h12.keeps _ _ hf; rw [hB e h] at this; cases this

theorem missing_le_length (insts : Instantiations) (pt : StdMap Str) :
    missing insts pt ≤ insts.length :=
  List.countP_le_length _

theorem missing_mono (insts : Instantiations) {pt pt' : StdMap Str}
    (keeps : ∀ k v, StdMap.find pt k = some v → StdMap.find pt' k = some v) :
    missing insts pt' ≤ missing insts pt := by
  induction insts with
  | nil => simp [missing]
  | cons e rest ih =>
    simp only [missing, List.countP_cons] at ih ⊢
    have : (if (StdMap.find pt' e.1).isNone = true then 1 else 0)
        ≤ (if (StdMap.find pt e.1).isNone = true then 1 else 0) := by
      cases h : StdMap.find pt e.1 with
      | none => simp; split <;> omega
      | some v => simp [keeps _ _ h]
    omega

theorem missing_lt (insts : Instantiations) {pt pt' : StdMap Str} {s : Str}
    (keeps : ∀ k v, StdMap.find pt k = some v → StdMap.find pt' k = some v)
    (hs : StdMap.find pt s = none) (hs' : (StdMap.find pt' s).isSome)
    (hkey : (StdMap.find insts s).isSome) :
    missing insts pt' < missing insts pt := by
  induction insts with
  | nil => simp [StdMap.find] at hkey
  | cons e rest ih =>
    obtain ⟨k, fs⟩ := e
    have hrest := missing_mono rest keeps
    simp only [missing, List.countP_cons] at ih hrest ⊢
    by_cases hk : k = s
    · subst hk
      cases h' : StdMap.find pt' k with
      | none => simp [h'] at hs'
      | some v => simp [hs]; omega
    · have hkey' : (StdMap.find rest s).isSome := by simpa [StdMap.find, hk] using hkey
      have := ih hkey'
      have : (if (StdMap.find pt' k).isNone = true then 1 else 0)
          ≤ (if (StdMap.find pt k).isNone = true then 1 else 0) := by
        cases h : StdMap.find pt k with
        | none => simp; split <;> omega
        | some v => simp [keeps _ _ h]
      simp only at this ⊢
      omega

end FieldVisitor

namespace FieldVisitor

theorem traverseFields_extends (insts : Instantiations) (fuel : Nat)
    (ih : ∀ s fdes w, missing insts w.processed_templates < fuel →
      ∃ r, ProcessTemplateFuel insts fuel s fdes w = some r ∧ Extends w r.2.2) :
    ∀ fs w, missing insts w.processed_templates < fuel →
      ∃ w', traverseFields (ProcessTemplateFuel insts fuel) fs w = some w' ∧ Extends w w' := by
  intro fs
  induction fs with
  | nil => intro w _; exact ⟨w, rfl, Extends.refl w⟩
  | cons f fs ihfs =>
    intro w hw
    obtain ⟨r, hr, hext⟩ := ih f.in_name { FieldDescription.fresh f.container_class false with name := f.name } w hw
    have hlt : missing insts r.2.2.processed_templates < fuel :=
      lt_of_le_of_lt (missing_mono insts hext.keeps) hw
    obtain ⟨w', hw', hext'⟩ := ihfs r.2.2 hlt
    refine ⟨w', ?_, hext.trans hext'⟩
    simp only [traverseFields, hr, hw']

theorem ProcessTemplateFuel_hit (insts : Instantiations) (fuel : Nat) (s : Str)
    (fdes : FieldDescription) (w : World) (v : Str)
    (h : StdMap.find w.processed_templates s = some v) :
    ProcessTemplateFuel insts (fuel + 1) s fdes w = some (false, finishTemplate fdes v, w) := by
  simp [ProcessTemplateFuel, h, StdMap.subscript, finishTemplate]

theorem ProcessTemplateFuel_run (insts : Instantiations) :
    ∀ fuel s fdes w, missing insts w.processed_templates < fuel →
      ∃ w', ProcessTemplateFuel insts fuel s fdes w
          = some (false, finishTemplate fdes (storedId w fdes s), w') ∧
        StdMap.find w'.processed_templates s = some (storedId w fdes s) ∧
        Extends w w' ∧
        emissionsOf w' s
          = emissionsOf w s + (if (StdMap.find w.processed_templates s).isNone then 1 else 0) := by
  intro fuel
  induction fuel with
  | zero => intro s fdes w h; omega
  | succ fuel ih =>
    intro s fdes w hw
    cases hfind : StdMap.find w.processed_templates s with
    | some v =>
      refine ⟨w, ?_, ?_, Extends.refl w, ?_⟩
      · rw [ProcessTemplateFuel_hit insts fuel s fdes w v hfind]
        simp [storedId, hfind]
      · simp [storedId, hfind]
      · simp
    | none =>
      have hid : storedId w fdes s = generatedId fdes s := by simp [storedId, hfind]
      let w1 : World :=
        { w with processed_templates := StdMap.assign w.processed_templates s (generatedId fdes s) }
      have hw1s : StdMap.find w1.processed_templates s = some (generatedId fdes s) :=
        StdMap.find_assign_self _ _ _
      have hw1k : ∀ k, k ≠ s →
          StdMap.find w1.processed_templates k = StdMap.find w.processed_templates k :=
        fun k hk => StdMap.find_assign_ne _ _ _ _ hk
      have hkeep1 : ∀ k v, StdMap.find w.processed_templates k = some v →
          StdMap.find w1.processed_templates k = some v := by
        intro k v hk
        have hne : k ≠ s := by rintro rfl; rw [hfind] at hk; cases hk
        rw [hw1k k hne]; exact hk
      have htrav : ∃ w2, traverseFields (ProcessTemplateFuel insts fuel) (insts.fieldsOf s) w1
          = some w2 ∧ Extends w1 w2 := by
        cases hkey : StdMap.find insts s with
        | none =>
          refine ⟨w1, ?_, Extends.refl w1⟩
          simp [Instantiations.fieldsOf, hkey, traverseFields]
        | some fs =>
          have hlt : missing insts w1.processed_templates < fuel := by
            have := missing_lt insts (s := s) hkeep1 hfind (by simp [hw1s]) (by simp [hkey])
            omega
          refine traverseFields_extends insts fuel ?_ _ w1 hlt
          intro s' fdes' w' hw'
          obtain ⟨w'', h1, _, h3, _⟩ := ih s' fdes' w' hw'
          exact ⟨_, h1, h3⟩
      obtain ⟨w2, htr, hext⟩ := htrav
      have hw2s : StdMap.find w2.processed_templates s = some (generatedId fdes s) :=
        hext.keeps _ _ hw1s
      obtain ⟨added, hadded, habsent⟩ := hext.calls
      have hne : ∀ e ∈ added, e.1 ≠ s := by
        intro e he heq
        have := habsent e he
        rw [heq, hw1s] at this
        cases this
      refine ⟨{ w2 with printClass_calls := w2.printClass_calls ++ [(s, generatedId fdes s)] },
        ?_, ?_, ⟨?_, ?_⟩, ?_⟩
      · have hsub : StdMap.subscript
            (StdMap.assign w.processed_templates s (generatedId fdes s)) s []
            = (generatedId fdes s, StdMap.assign w.processed_templates s (generatedId fdes s)) :=
          StdMap.subscript_of_find [] hw1s
        have hsub2 : StdMap.subscript w2.processed_templates s []
            = (generatedId fdes s, w2.processed_templates) :=
          StdMap.subscript_of_find [] hw2s
        simp only [ProcessTemplateFuel, hfind, Option.isNone_none, if_true]
        simp only [w1] at htr
        simp only [generatedId] at hsub hsub2 htr
        simp only [hsub, htr, hsub2, hid, finishTemplate, generatedId]
      · rw [hid]; exact hw2s
      · intro k v hk
        exact hext.keeps k v (hkeep1 k v hk)
      · refine ⟨added ++ [(s, generatedId fdes s)], ?_, ?_⟩
        · show w2.printClass_calls ++ _ = _
          rw [hadded, List.append_assoc]
        · intro e he
          rcases List.mem_append.mp he with h | h
          · have := habsent e h
            rwa [hw1k e.1 (hne e h)] at this
          · simp at h; subst h; exact hfind
      · show List.countP _ (w2.printClass_calls ++ _) = _
        have hzero : List.countP (fun e : Str × Str => decide (e.1 = s)) added = 0 := by
          rw [List.countP_eq_zero]
          intro e he
          simpa using hne e he
        rw [hadded]
        simp [emissionsOf, List.countP_append, hzero]

theorem ProcessTemplate_returns (insts : Instantiations) (s : Str) (fdes : FieldDescription)
    (w : World) :
    ∃ w', ProcessTemplate insts s fdes w
          = some (false, finishTemplate fdes (storedId w fdes s), w') ∧
        StdMap.find w'.processed_templates s = some (storedId w fdes s) ∧
        Extends w w' ∧
        emissionsOf w' s
          = emissionsOf w s + (if (StdMap.find w.processed_templates s).isNone then 1 else 0) :=
  ProcessTemplateFuel_run insts (insts.length + 1) s fdes w
    (Nat.lt_succ_of_le (missing_le_length insts _))

end FieldVisitor

namespace FieldVisitor

/-- What `VisitBuiltinType` leaves alone: everything but the type name and the category. -/
theorem VisitBuiltinType_frame (bt : BuiltinType) (fdes : FieldDescription) :
    (VisitBuiltinType bt fdes).1 = true ∧
    (VisitBuiltinType bt fdes).2.io = fdes.io ∧
    (VisitBuiltinType bt fdes).2.array_dims = fdes.array_dims ∧
    (VisitBuiltinType bt fdes).2.is_bitfield = fdes.is_bitfield ∧
    (VisitBuiltinType bt fdes).2.bitfield_width = fdes.bitfield_width := by
  obtain ⟨k, s⟩ := bt
  cases hb : fdes.is_bitfield <;> cases k <;>
    simp [VisitBuiltinType, hb, BuiltinType.isUnsignedInteger]

/-- What `VisitEnumType` leaves alone. -/
theorem VisitEnumType_frame (et : EnumType) (fdes : FieldDescription) :
    (VisitEnumType et fdes).1 = true ∧
    (VisitEnumType et fdes).2.io = fdes.io ∧
    (VisitEnumType et fdes).2.array_dims = fdes.array_dims := by
  simp [VisitEnumType]

/-- The method `VisitRecordType` always has a result; it returns `false`, leaves the dimension
list alone and either keeps the IO mask or sets it to 0. -/
theorem VisitRecordType_returns (insts : Instantiations) (rt : RecordType)
    (fdes : FieldDescription) (w : World) :
    ∃ d w', VisitRecordType insts rt fdes w = some (false, d, w') ∧
      d.array_dims = fdes.array_dims ∧ (d.io = fdes.io ∨ d.io = 0) ∧ Extends w w' := by
  unfold VisitRecordType
  simp only
  split
  · exact ⟨_, _, rfl, rfl, Or.inl rfl, Extends.refl w⟩
  · split
    · split
      · exact ⟨_, _, rfl, rfl, Or.inl rfl, Extends.refl w⟩
      · exact ⟨_, _, rfl, rfl, Or.inr rfl, Extends.refl w⟩
    · split
      · obtain ⟨w', h, _, hext, _⟩ :=
          ProcessTemplate_returns insts (normalizeSpelling rt.asString) fdes w
        exact ⟨_, w', h, rfl, Or.inl rfl, hext⟩
      · refine ⟨_, _, rfl, ?_, ?_, Extends.refl w⟩
        · cases rt.decl.hasNameForLinkage <;> cases rt.decl.hasDeclName <;> simp
        · cases rt.decl.hasNameForLinkage <;> cases rt.decl.hasDeclName <;> simp

theorem testBit_of_eq_or_zero {a b : Nat} (h : a = b ∨ a = 0) (i : Nat)
    (hi : a.testBit i = true) : b.testBit i = true := by
  rcases h with h | h
  · rw [← h]; exact hi
  · rw [h] at hi; simp at hi

/-- The walk `TraverseType` always has a result; the IO mask is kept or set to 0, and the
dimension list grows by the levels of the type. -/
theorem TraverseType_returns (insts : Instantiations) :
    ∀ (ty : Ty) (fdes : FieldDescription) (w : World),
      ∃ r, TraverseType insts ty fdes w = some r ∧ (r.2.1.io = fdes.io ∨ r.2.1.io = 0) ∧
        r.2.1.array_dims = fdes.array_dims ++ ty.levels := by
  intro ty
  induction ty with
  | builtin bt =>
    intro fdes w
    obtain ⟨_, hio, hdims, _⟩ := VisitBuiltinType_frame bt fdes
    exact ⟨_, rfl, Or.inl (by simpa [VisitType] using hio),
      by simpa [VisitType, Ty.levels] using hdims⟩
  | constantArray size element ih =>
    intro fdes w
    obtain ⟨r, hr, hio, hdims⟩ := ih (VisitConstantArrayType size (VisitType false fdes).2).2 w
    refine ⟨r, by simpa [TraverseType] using hr, ?_, ?_⟩
    · simpa [VisitConstantArrayType, VisitType] using hio
    · simpa [VisitConstantArrayType, VisitType, Ty.levels] using hdims
  | pointer pointee ih =>
    intro fdes w
    obtain ⟨r, hr, hio, hdims⟩ := ih (VisitPointerType (VisitType false fdes).2).2 w
    refine ⟨r, by simpa [TraverseType] using hr, ?_, ?_⟩
    · simpa [VisitPointerType, VisitType] using hio
    · simpa [VisitPointerType, VisitType, Ty.levels] using hdims
  | reference pointee ih =>
    intro fdes w
    obtain ⟨r, hr, hio, hdims⟩ := ih (VisitType true fdes).2 w
    refine ⟨r, by simpa [TraverseType] using hr, ?_, ?_⟩
    · right
      simpa [VisitType] using hio
    · simpa [VisitType, Ty.levels] using hdims
  | enum et =>
    intro fdes w
    exact ⟨_, rfl, Or.inl (by simp [VisitEnumType, VisitType]),
      by simp [VisitEnumType, VisitType, Ty.levels]⟩
  | record rt =>
    intro fdes w
    obtain ⟨d, w', h, hdims, hio, _⟩ := VisitRecordType_returns insts rt fdes w
    exact ⟨_, by simpa [TraverseType, VisitType] using h, hio, by simpa [Ty.levels] using hdims⟩

end FieldVisitor

/-! ## The claims -/

namespace FieldVisitor

/-- C1: for every registry state, every spelling `s` and any two descriptors, `ProcessTemplate`
on `s` for the first and then on `s` for the second returns both times, gives both
descriptors the same mangled type name (the identifier the registry holds for `s`), and over
the two calls `printClass` is called for `s` exactly once when `s` had no entry beforehand and
not at all when it had one. -/
theorem processTemplate_twice_one_identifier_one_emission (insts : Instantiations) (w : World)
    (s : Str) (f1 f2 : FieldDescription) :
    ∃ d1 w1 d2 w2,
      ProcessTemplate insts s f1 w = some (false, d1, w1) ∧
      ProcessTemplate insts s f2 w1 = some (false, d2, w2) ∧
      d1.mangled_type_name = d2.mangled_type_name ∧
      StdMap.find w2.processed_templates s = some d1.mangled_type_name ∧
      emissionsOf w2 s = emissionsOf w s +
        (if StdMap.find w.processed_templates s = none then 1 else 0) := by
  obtain ⟨w1, h1, hs1, _, he1⟩ := ProcessTemplate_returns insts s f1 w
  obtain ⟨w2, h2, hs2, _, he2⟩ := ProcessTemplate_returns insts s f2 w1
  have hid : storedId w1 f2 s = storedId w f1 s := by
    simp [storedId, hs1]
  refine ⟨_, w1, _, w2, h1, h2, ?_, ?_, ?_⟩
  · simp [finishTemplate, hid]
  · rw [hs2, hid]; simp [finishTemplate]
  · rw [he2, he1]
    simp only [hs1]
    cases StdMap.find w.processed_templates s <;> simp

theorem levels_length (ty : Ty) : ty.levels.length = ty.depth := by
  induction ty with
  | constantArray size element ih => simp [Ty.levels, Ty.depth, ih]
  | pointer pointee ih => simp [Ty.levels, Ty.depth, ih]
  | reference pointee ih => simp [Ty.levels, Ty.depth, ih]
  | builtin bt => rfl
  | enum et => rfl
  | record rt => rfl

theorem levels_arrayChain (sizes : List Nat) (leaf : Ty) (h : leaf.isLeaf = true) :
    (Ty.arrayChain sizes leaf).levels = sizes.map (fun n => (n : Int)) := by
  induction sizes with
  | nil => cases leaf <;> simp_all [Ty.arrayChain, Ty.levels, Ty.isLeaf]
  | cons n sizes ih => simp [Ty.arrayChain, Ty.levels, ih]

theorem levels_pointerChain (n : Nat) (leaf : Ty) (h : leaf.isLeaf = true) :
    (Ty.pointerChain n leaf).levels = List.replicate n (-1) := by
  induction n with
  | zero => cases leaf <;> simp_all [Ty.pointerChain, Ty.levels, Ty.isLeaf]
  | succ n ih => simp [Ty.pointerChain, Ty.levels, ih, List.replicate_succ]

/-- C2: for a descriptor with no dimension yet (a fresh one) and every type `ty`, so for every
chain of array and pointer nodes over a leaf, the walk returns and leaves the dimension list
`ty.levels`: as many entries as there are array and pointer levels, outermost first, the
literal element count for an array level and -1 for a pointer level.  A pure array chain
gives its sizes in order, a pure pointer chain of depth `n` gives `n` entries -1. -/
theorem dimensions_of_array_pointer_chain (insts : Instantiations) (fdes : FieldDescription)
    (w : World) (ty : Ty) (hfresh : fdes.array_dims = []) :
    (∃ r, TraverseType insts ty fdes w = some r ∧ r.2.1.array_dims = ty.levels ∧
      r.2.1.array_dims.length = ty.depth) ∧
    (∀ sizes leaf, leaf.isLeaf = true →
      ∃ r, TraverseType insts (Ty.arrayChain sizes leaf) fdes w = some r ∧
        r.2.1.array_dims = sizes.map (fun n => (n : Int))) ∧
    (∀ n leaf, leaf.isLeaf = true →
      ∃ r, TraverseType insts (Ty.pointerChain n leaf) fdes w = some r ∧
        r.2.1.array_dims = List.replicate n (-1)) := by
  refine ⟨?_, ?_, ?_⟩
  · obtain ⟨r, hr, _, hd⟩ := TraverseType_returns insts ty fdes w
    rw [hfresh, List.nil_append] at hd
    exact ⟨r, hr, hd, by rw [hd, levels_length]⟩
  · intro sizes leaf hleaf
    obtain ⟨r, hr, _, hd⟩ := TraverseType_returns insts (Ty.arrayChain sizes leaf) fdes w
    rw [hfresh, List.nil_append, levels_arrayChain sizes leaf hleaf] at hd
    exact ⟨r, hr, hd⟩
  · intro n leaf hleaf
    obtain ⟨r, hr, _, hd⟩ := TraverseType_returns insts (Ty.pointerChain n leaf) fdes w
    rw [hfresh, List.nil_append, levels_pointerChain n leaf hleaf] at hd
    exact ⟨r, hr, hd⟩

theorem dimensions_of_array_pointer_chain_witness :
    (∃ r, TraverseType [] (.constantArray 3 (.pointer (.constantArray 4
        (.builtin ⟨.Double, "double".toList⟩)))) (FieldDescription.fresh "C".toList false)
        ⟨[], []⟩ = some r ∧
      r.2.1.array_dims = (Ty.constantArray 3 (.pointer (.constantArray 4
        (.builtin ⟨.Double, "double".toList⟩)))).levels ∧
      r.2.1.array_dims.length = (Ty.constantArray 3 (.pointer (.constantArray 4
        (.builtin ⟨.Double, "double".toList⟩)))).depth) ∧
    (Ty.constantArray 3 (.pointer (.constantArray 4
        (.builtin ⟨.Double, "double".toList⟩)))).levels = [3, -1, 4] :=
  ⟨(dimensions_of_array_pointer_chain [] (FieldDescription.fresh "C".toList false) ⟨[], []⟩
      (.constantArray 3 (.pointer (.constantArray 4 (.builtin ⟨.Double, "double".toList⟩))))
      rfl).1, rfl⟩

theorem runOp_returns (insts : Instantiations) (op : VisitorOp) (fdes : FieldDescription)
    (w : World) :
    ∃ r, runOp insts op fdes w = some r ∧ (r.1.io = fdes.io ∨ r.1.io = 0 ∨ r.1.io = fdes.io &&& 1) := by
  cases op with
  | visitType b => exact ⟨_, rfl, by cases b <;> simp [VisitType]⟩
  | visitBuiltinType bt => exact ⟨_, rfl, Or.inl (VisitBuiltinType_frame bt fdes).2.1⟩
  | visitConstantArrayType size => exact ⟨_, rfl, Or.inl rfl⟩
  | visitPointerType => exact ⟨_, rfl, Or.inl rfl⟩
  | visitEnumType et => exact ⟨_, rfl, Or.inl (VisitEnumType_frame et fdes).2.1⟩
  | visitRecordType rt =>
    obtain ⟨d, w', h, _, hio, _⟩ := VisitRecordType_returns insts rt fdes w
    refine ⟨(d, w'), by simp [runOp, h], ?_⟩
    rcases hio with h | h
    · exact Or.inl h
    · exact Or.inr (Or.inl h)
  | processTemplate in_name =>
    obtain ⟨w', h, _⟩ := ProcessTemplate_returns insts in_name fdes w
    exact ⟨(finishTemplate fdes (storedId w fdes in_name), w'), by simp [runOp, h],
      Or.inl (by simp [finishTemplate])⟩
  | visitVarDecl v =>
    obtain ⟨st, co, ini⟩ := v
    refine ⟨_, rfl, ?_⟩
    cases st <;> cases co <;> cases ini <;> simp [VisitVarDecl]

theorem testBit_of_narrowed {a b : Nat} (h : a = b ∨ a = 0 ∨ a = b &&& 1) (i : Nat)
    (hi : a.testBit i = true) : b.testBit i = true := by
  rcases h with h | h | h
  · rw [← h]; exact hi
  · rw [h] at hi; simp at hi
  · rw [h, Nat.testBit_and] at hi
    simp only [Bool.and_eq_true] at hi
    exact hi.1

/-- C3: every classification operation returns and only narrows the IO mask: each bit set
after it was set before it; and so for every sequence of operations. -/
theorem io_mask_only_narrows (insts : Instantiations) :
    (∀ (op : VisitorOp) (fdes : FieldDescription) (w : World),
      ∃ r, runOp insts op fdes w = some r ∧
        ∀ i, r.1.io.testBit i = true → fdes.io.testBit i = true) ∧
    (∀ (ops : List VisitorOp) (fdes : FieldDescription) (w : World),
      ∃ r, runOps insts ops fdes w = some r ∧
        ∀ i, r.1.io.testBit i = true → fdes.io.testBit i = true) := by
  have one : ∀ (op : VisitorOp) (fdes : FieldDescription) (w : World),
      ∃ r, runOp insts op fdes w = some r ∧
        ∀ i, r.1.io.testBit i = true → fdes.io.testBit i = true := by
    intro op fdes w
    obtain ⟨r, hr, hio⟩ := runOp_returns insts op fdes w
    exact ⟨r, hr, fun i hi => testBit_of_narrowed hio i hi⟩
  refine ⟨one, ?_⟩
  intro ops
  induction ops with
  | nil => intro fdes w; exact ⟨_, rfl, fun _ h => h⟩
  | cons op ops ih =>
    intro fdes w
    obtain ⟨r, hr, hio⟩ := one op fdes w
    obtain ⟨r', hr', hio'⟩ := ih r.1 r.2
    exact ⟨r', by simp [runOps, hr, hr'], fun i hi => hio i (hio' i hi)⟩

end FieldVisitor

namespace FieldVisitor

/-- C5: for a descriptor not marked as a bitfield, `VisitBuiltinType` assigns the category of
the table `builtinCategories` to each sub-kind listed there (with type name "bool" for
`Bool`) and `TRICK_VOID` to every sub-kind not listed; it leaves the dimension list and the
IO mask unchanged.  The member `double x;` ends with category `TRICK_DOUBLE`, no dimension
and the IO mask unrestricted. -/
theorem builtin_category_table (bt : BuiltinType) (fdes : FieldDescription)
    (hbit : fdes.is_bitfield = false) :
    (∀ e ∈ builtinCategories, bt.kind = e.1 → (VisitBuiltinType bt fdes).2.enum_string = e.2) ∧
    ((∀ e ∈ builtinCategories, bt.kind ≠ e.1) →
      (VisitBuiltinType bt fdes).2.enum_string = "TRICK_VOID".toList) ∧
    (bt.kind = BuiltinKind.Bool → (VisitBuiltinType bt fdes).2.type_name = "bool".toList) ∧
    (VisitBuiltinType bt fdes).2.array_dims = fdes.array_dims ∧
    (VisitBuiltinType bt fdes).2.io = fdes.io ∧
    (∀ (offsetOf : Nat → Nat → Nat) (insts : Instantiations) (w : World) (c : Str) (inh : Bool)
        (off size : Nat),
      ∃ d, classifyField offsetOf insts
          ⟨off, false, 0, ⟨"double".toList, true, .builtin ⟨.Double, "double".toList⟩⟩, size⟩
          (FieldDescription.fresh c inh) w = some (true, d, w) ∧
        d.enum_string = "TRICK_DOUBLE".toList ∧ d.array_dims = [] ∧
        d.io = FieldDescription.ioUnrestricted) := by
  obtain ⟨k, s⟩ := bt
  refine ⟨?_, ?_, ?_, (VisitBuiltinType_frame _ fdes).2.2.1, (VisitBuiltinType_frame _ fdes).2.1, ?_⟩
  · intro e he hk
    simp only at hk
    subst hk
    simp only [builtinCategories, List.mem_cons, List.mem_singleton, List.not_mem_nil,
      or_false] at he
    rcases he with h | h | h | h | h | h | h | h | h | h | h | h | h | h | h | h | h | h <;>
      subst h <;> simp [VisitBuiltinType, hbit]
  · intro hk
    simp only at hk
    cases k <;> first
      | exact absurd hk (by decide)
      | simp [VisitBuiltinType, hbit]
  · intro hk
    simp only at hk
    subst hk
    simp [VisitBuiltinType, hbit]
  · intro offsetOf insts w c inh off size
    exact ⟨_, rfl, rfl, rfl, rfl⟩

theorem builtin_category_table_witness :
    (VisitBuiltinType ⟨.UInt, "unsigned int".toList⟩ (FieldDescription.fresh [] false)).2.enum_string
        = "TRICK_UNSIGNED_INTEGER".toList ∧
    (VisitBuiltinType ⟨.LongDouble, "long double".toList⟩
        (FieldDescription.fresh [] false)).2.enum_string = "TRICK_VOID".toList :=
  ⟨(builtin_category_table ⟨.UInt, "unsigned int".toList⟩ (FieldDescription.fresh [] false) rfl).1
      (.UInt, "TRICK_UNSIGNED_INTEGER".toList) (by decide) rfl,
    (builtin_category_table ⟨.LongDouble, "long double".toList⟩
      (FieldDescription.fresh [] false) rfl).2.1 (by decide)⟩

end FieldVisitor

namespace FieldVisitor

theorem compare_eq_iff_starts (s t : Str) :
    StdString.compare_eq s t.length t = true ↔ t <+: s := by
  simp only [StdString.compare_eq, decide_eq_true_eq, List.prefix_iff_eq_take]
  exact eq_comm

theorem VisitBuiltinType_bitfield (bt : BuiltinType) (fdes : FieldDescription)
    (h : fdes.is_bitfield = true) :
    (VisitBuiltinType bt fdes).2.enum_string = (if bt.isUnsignedInteger
      then "TRICK_UNSIGNED_BITFIELD".toList else "TRICK_BITFIELD".toList) ∧
    (bt.kind = BuiltinKind.Bool → (VisitBuiltinType bt fdes).2.type_name = "bool".toList) := by
  obtain ⟨k, s⟩ := bt
  cases k <;> simp [VisitBuiltinType, h, BuiltinType.isUnsignedInteger]

theorem VisitBuiltinType_fst (bt : BuiltinType) (fdes : FieldDescription) :
    (VisitBuiltinType bt fdes).1 = true := (VisitBuiltinType_frame bt fdes).1

/-- The classification of a field whose canonical type is a builtin: `VisitBuiltinType` on
the descriptor as `VisitFieldDecl` has prepared it. -/
theorem classifyField_builtin (offsetOf : Nat → Nat → Nat) (insts : Instantiations)
    (w : World) (field : FieldDecl) (bt : BuiltinType) (fdes : FieldDescription)
    (hty : field.type.canonicalType = .builtin bt) :
    ∃ b pre, classifyField offsetOf insts field fdes w
        = some (b, (VisitBuiltinType bt pre).2, w) ∧
      pre.is_bitfield = field.isBitField ∧
      (field.isBitField = true → pre.bitfield_width = field.bitWidthValue) ∧
      pre.array_dims = fdes.array_dims ∧ pre.io = fdes.io := by
  obtain ⟨off, isbf, width, ⟨spelling, canon, ct⟩, size⟩ := field
  simp only at hty
  subst hty
  cases canon <;> cases isbf
  · exact ⟨false, (((fdes.setFieldOffset (off / 8)).setBitField false).setFieldWidth
      (size / 8)).setNonCanonicalTypeName spelling,
      by simp only [classifyField, VisitFieldDecl, TraverseType, VisitType, VisitBuiltinType_fst,
        Bool.not_true, Bool.not_false, Bool.false_eq_true, if_false, if_true,
        FieldDescription.setBitField],
      by simp, by simp, by simp, by simp⟩
  · exact ⟨false, ((((((fdes.setFieldOffset (off / 8)).setBitField true).setBitFieldWidth
      width).calcBitfieldOffset offsetOf).setFieldWidth (size / 8))).setNonCanonicalTypeName
      spelling,
      by simp only [classifyField, VisitFieldDecl, TraverseType, VisitType, VisitBuiltinType_fst,
        Bool.not_true, Bool.not_false, Bool.false_eq_true, if_false, if_true,
        FieldDescription.setBitField],
      by simp, by simp, by simp, by simp⟩
  · exact ⟨true, ((fdes.setFieldOffset (off / 8)).setBitField false).setFieldWidth (size / 8),
      by simp only [classifyField, VisitFieldDecl, TraverseType, VisitType, VisitBuiltinType_fst,
        Bool.not_true, Bool.not_false, Bool.false_eq_true, if_false, if_true,
        FieldDescription.setBitField],
      by simp, by simp, by simp, by simp⟩
  · exact ⟨true, ((((fdes.setFieldOffset (off / 8)).setBitField true).setBitFieldWidth
      width).calcBitfieldOffset offsetOf).setFieldWidth (size / 8),
      by simp only [classifyField, VisitFieldDecl, TraverseType, VisitType, VisitBuiltinType_fst,
        Bool.not_true, Bool.not_false, Bool.false_eq_true, if_false, if_true,
        FieldDescription.setBitField],
      by simp, by simp, by simp, by simp⟩

/-- C6: for every field declared as a bitfield whose (canonical) type is a builtin, starting
from a descriptor with no dimension, the classification returns with the bitfield flag set,
the declared width recorded and the dimension list empty; the category is
`TRICK_UNSIGNED_BITFIELD` when the builtin is an unsigned integer kind and `TRICK_BITFIELD`
otherwise, never a category of a builtin that is not a bitfield, and for a boolean the type
name is "bool". -/
theorem bitfield_classification (offsetOf : Nat → Nat → Nat) (insts : Instantiations)
    (w : World) (field : FieldDecl) (bt : BuiltinType) (fdes : FieldDescription)
    (hbf : field.isBitField = true) (hty : field.type.canonicalType = .builtin bt)
    (hfresh : fdes.array_dims = []) :
    ∃ b d, classifyField offsetOf insts field fdes w = some (b, d, w) ∧
      d.is_bitfield = true ∧ d.bitfield_width = field.bitWidthValue ∧ d.array_dims = [] ∧
      d.enum_string = (if bt.isUnsignedInteger then "TRICK_UNSIGNED_BITFIELD".toList
        else "TRICK_BITFIELD".toList) ∧
      (∀ e ∈ builtinCategories, d.enum_string ≠ e.2) ∧ d.enum_string ≠ "TRICK_VOID".toList ∧
      (bt.kind = BuiltinKind.Bool → d.type_name = "bool".toList) := by
  obtain ⟨b, pre, hrun, hpbf, hpw, hpd, _⟩ :=
    classifyField_builtin offsetOf insts w field bt fdes hty
  rw [hbf] at hpbf
  obtain ⟨_, _, hdims, hbit, hwidth⟩ := VisitBuiltinType_frame bt pre
  obtain ⟨hcat, hbool⟩ := VisitBuiltinType_bitfield bt pre hpbf
  have hnot : ∀ c : Str,
      (c = "TRICK_UNSIGNED_BITFIELD".toList ∨ c = "TRICK_BITFIELD".toList) →
      (∀ e ∈ builtinCategories, c ≠ e.2) ∧ c ≠ "TRICK_VOID".toList := by
    intro c hc
    rcases hc with h | h <;> subst h <;> decide
  have hc : (VisitBuiltinType bt pre).2.enum_string = "TRICK_UNSIGNED_BITFIELD".toList ∨
      (VisitBuiltinType bt pre).2.enum_string = "TRICK_BITFIELD".toList := by
    rw [hcat]; cases bt.isUnsignedInteger <;> simp
  exact ⟨b, _, hrun, by rw [hbit, hpbf], by rw [hwidth, hpw hbf], by rw [hdims, hpd, hfresh],
    hcat, (hnot _ hc).1, (hnot _ hc).2, hbool⟩

theorem bitfield_classification_witness :
    ∃ b d, classifyField (fun _ _ => 0) []
        ⟨64, true, 3, ⟨"unsigned int".toList, true, .builtin ⟨.UInt, "unsigned int".toList⟩⟩, 32⟩
        (FieldDescription.fresh "C".toList false) ⟨[], []⟩ = some (b, d, ⟨[], []⟩) ∧
      d.is_bitfield = true ∧ d.bitfield_width = 3 ∧ d.array_dims = [] ∧
      d.enum_string = "TRICK_UNSIGNED_BITFIELD".toList :=
  let ⟨b, d, h1, h2, h3, h4, h5, _⟩ := bitfield_classification (fun _ _ => 0) [] ⟨[], []⟩
    ⟨64, true, 3, ⟨"unsigned int".toList, true, .builtin ⟨.UInt, "unsigned int".toList⟩⟩, 32⟩
    ⟨.UInt, "unsigned int".toList⟩ (FieldDescription.fresh "C".toList false) rfl rfl rfl
  ⟨b, d, h1, h2, h3, h4, h5⟩

/-- C7: `VisitVarDecl` sets the IO mask to 0 for a static const member with an initializer, to
`m AND 1` (output bit kept, input bit cleared) for a static const member without one, and
leaves it `m` otherwise; the static flag becomes whether the variable is a static data
member.  The declaration `static const int K = 5;` ends, after the walk over its type, with
the IO mask 0. -/
theorem varDecl_io_mask (v : VarDecl) (fdes : FieldDescription) :
    (VisitVarDecl v fdes).1 = true ∧
    (v.isStaticDataMember = true ∧ v.isConstQualified = true ∧ v.hasInit = true →
      (VisitVarDecl v fdes).2.io = 0) ∧
    (v.isStaticDataMember = true ∧ v.isConstQualified = true ∧ v.hasInit = false →
      (VisitVarDecl v fdes).2.io = fdes.io &&& 1 ∧
      (VisitVarDecl v fdes).2.io.testBit 0 = fdes.io.testBit 0 ∧
      (VisitVarDecl v fdes).2.io.testBit 1 = false) ∧
    (¬ (v.isStaticDataMember = true ∧ v.isConstQualified = true) →
      (VisitVarDecl v fdes).2.io = fdes.io) ∧
    (VisitVarDecl v fdes).2.is_static = v.isStaticDataMember ∧
    (∀ (insts : Instantiations) (w : World),
      ∃ d, TraverseType insts (.builtin ⟨.Int, "int".toList⟩)
          (VisitVarDecl ⟨true, true, true⟩ fdes).2 w = some (true, d, w) ∧ d.io = 0) := by
  obtain ⟨st, co, ini⟩ := v
  refine ⟨rfl, ?_, ?_, ?_, ?_, ?_⟩
  · rintro ⟨h1, h2, h3⟩
    simp only at h1 h2 h3
    subst h1 h2 h3
    rfl
  · rintro ⟨h1, h2, h3⟩
    simp only at h1 h2 h3
    subst h1 h2 h3
    refine ⟨rfl, ?_, ?_⟩
    · show (fdes.io &&& 1).testBit 0 = fdes.io.testBit 0
      rw [Nat.testBit_and]
      have h0 : Nat.testBit 1 0 = true := by decide
      rw [h0, Bool.and_true]
    · show (fdes.io &&& 1).testBit 1 = false
      rw [Nat.testBit_and]
      have h1 : Nat.testBit 1 1 = false := by decide
      rw [h1, Bool.and_false]
  · intro h
    cases st <;> cases co <;> cases ini <;> simp_all [VisitVarDecl]
  · cases st <;> cases co <;> cases ini <;> simp [VisitVarDecl]
  · intro insts w
    refine ⟨(VisitBuiltinType ⟨.Int, "int".toList⟩
      (VisitVarDecl ⟨true, true, true⟩ fdes).2).2, ?_, ?_⟩
    · simp [TraverseType, VisitType, VisitBuiltinType_frame]
    · rw [(VisitBuiltinType_frame _ _).2.1]; rfl

end FieldVisitor

namespace FieldVisitor

/-- C9: for a record that is not string-like, whose normalized spelling does not start with
"std::" and whose definition is not a template instantiation, `VisitRecordType` returns
`false` (stops descending) with category `TRICK_STRUCTURED` and the record flag set, the
registry untouched; with no name for linkage the IO mask becomes 0; with a declared name
the type name is the qualified name and the IO mask is unchanged; with a name only through
a typedef the type name is the typedef's qualified name and the IO mask is unchanged. -/
theorem plain_aggregate_classification (insts : Instantiations) (rt : RecordType)
    (fdes : FieldDescription) (w : World)
    (hstr : rt.decl.qualifiedName ≠ "std::basic_string".toList ∧
      rt.decl.qualifiedName ≠ "std::__1::basic_string".toList ∧
      rt.decl.qualifiedName ≠ "std::__cxx11::basic_string".toList)
    (hstd : ¬ "std::".toList <+: normalizeSpelling rt.asString)
    (htmpl : rt.decl.definitionIsTemplateSpecialization ≠ some true) :
    ∃ d, VisitRecordType insts rt fdes w = some (false, d, w) ∧
      d.enum_string = "TRICK_STRUCTURED".toList ∧ d.is_record = true ∧
      (rt.decl.hasDeclName = false ∧ rt.decl.typedefNameForAnonDecl = none → d.io = 0) ∧
      (rt.decl.hasDeclName = true →
        d.type_name = rt.decl.qualifiedName ∧ d.io = fdes.io) ∧
      (∀ n, rt.decl.hasDeclName = false ∧ rt.decl.typedefNameForAnonDecl = some n →
        d.type_name = n ∧ d.io = fdes.io) := by
  obtain ⟨⟨qn, hasName, td, dts⟩, printed⟩ := rt
  simp only at hstr hstd htmpl
  have hcmp : StdString.compare_eq (normalizeSpelling printed) 5 "std::".toList = false := by
    have := (compare_eq_iff_starts (normalizeSpelling printed) "std::".toList).not.mpr hstd
    simpa using this
  unfold VisitRecordType
  simp only [hstr.1, hstr.2.1, hstr.2.2, decide_False, Bool.or_self, Bool.false_eq_true,
    if_false, hcmp, htmpl]
  cases hasName <;> cases td <;>
    simp [RecordDecl.hasNameForLinkage]

theorem plain_aggregate_classification_witness :
    ∃ d, VisitRecordType []
        ⟨⟨"(anonymous struct)".toList, false, none, some false⟩,
          "struct SA::(anonymous struct)".toList⟩
        (FieldDescription.fresh "SA".toList false) ⟨[], []⟩ = some (false, d, ⟨[], []⟩) ∧
      d.enum_string = "TRICK_STRUCTURED".toList ∧ d.is_record = true ∧ d.io = 0 :=
  let ⟨d, h1, h2, h3, h4, _⟩ := plain_aggregate_classification []
    ⟨⟨"(anonymous struct)".toList, false, none, some false⟩,
      "struct SA::(anonymous struct)".toList⟩
    (FieldDescription.fresh "SA".toList false) ⟨[], []⟩
    (by decide) (by decide) (by decide)
  ⟨d, h1, h2, h3, h4 ⟨rfl, rfl⟩⟩

end FieldVisitor

namespace StdString

theorem find_ge_of_noMatchIn (pat : Str) :
    ∀ (fixed rest : Str) (p : Nat), noMatchIn pat fixed = true →
      find (fixed ++ rest) pat = some p → fixed.length ≤ p := by
  intro fixed
  induction fixed with
  | nil => intro rest p _ _; simp
  | cons c xs ih =>
    intro rest p hno hfind
    simp only [noMatchIn, Bool.and_eq_true, Bool.not_eq_true', Bool.or_eq_false_iff] at hno
    obtain ⟨⟨h1, h2⟩, h3⟩ := hno
    rw [List.cons_append, find] at hfind
    by_cases hp : pat.isPrefixOf (c :: (xs ++ rest)) = true
    · exfalso
      have hp' : pat <+: (c :: xs) ++ rest := by
        rw [List.cons_append]; exact List.isPrefixOf_iff_prefix.mp hp
      have hq : (c :: xs) <+: (c :: xs) ++ rest := List.prefix_append _ _
      rcases List.prefix_or_prefix_of_prefix hp' hq with h | h
      · rw [List.isPrefixOf_iff_prefix.mpr h] at h1; cases h1
      · rw [List.isPrefixOf_iff_prefix.mpr h] at h2; cases h2
    · rw [if_neg hp] at hfind
      cases hf : find (xs ++ rest) pat with
      | none => rw [hf] at hfind; cases hfind
      | some q =>
        rw [hf] at hfind
        simp only [Option.map_some', Option.some.injEq] at hfind
        have := ih rest q h3 hf
        simp only [List.length_cons]
        omega

theorem replace_append_of_le (fixed rest r : Str) (p n : Nat) (h : fixed.length ≤ p) :
    replace (fixed ++ rest) p n r = fixed ++ replace rest (p - fixed.length) n r := by
  have e : p + n - fixed.length = p - fixed.length + n := by omega
  simp only [replace, List.take_append_eq_append_take, List.drop_append_eq_append_drop,
    List.take_of_length_le h, List.drop_of_length_le (Nat.le_add_right_of_le h), e,
    List.nil_append, List.append_assoc]

theorem erase_append_of_le (fixed rest : Str) (p n : Nat) (h : fixed.length ≤ p) :
    erase (fixed ++ rest) p n = fixed ++ erase rest (p - fixed.length) n := by
  have e : p + n - fixed.length = p - fixed.length + n := by omega
  simp only [erase, List.take_append_eq_append_take, List.drop_append_eq_append_drop,
    List.take_of_length_le h, List.drop_of_length_le (Nat.le_add_right_of_le h), e,
    List.nil_append, List.append_assoc]

theorem eraseWhile_keeps (pat : Str) (n : Nat) (fixed : Str) (hno : noMatchIn pat fixed = true) :
    ∀ (fuel : Nat) (rest : Str), ∃ rest', eraseWhile pat n fuel (fixed ++ rest) = fixed ++ rest' := by
  intro fuel
  induction fuel with
  | zero => intro rest; exact ⟨rest, rfl⟩
  | succ fuel ih =>
    intro rest
    cases hf : find (fixed ++ rest) pat with
    | none => exact ⟨rest, by simp [eraseWhile, hf]⟩
    | some p =>
      have hle := find_ge_of_noMatchIn pat fixed rest p hno hf
      obtain ⟨rest', h⟩ := ih (erase rest (p - fixed.length) n)
      exact ⟨rest', by simp only [eraseWhile, hf, erase_append_of_le fixed rest p n hle, h]⟩

theorem replaceWhile_keeps (pat : Str) (n : Nat) (r : Str) (fixed : Str)
    (hno : noMatchIn pat fixed = true) :
    ∀ (fuel : Nat) (rest : Str),
      ∃ rest', replaceWhile pat n r fuel (fixed ++ rest) = fixed ++ rest' := by
  intro fuel
  induction fuel with
  | zero => intro rest; exact ⟨rest, rfl⟩
  | succ fuel ih =>
    intro rest
    cases hf : find (fixed ++ rest) pat with
    | none => exact ⟨rest, by simp [replaceWhile, hf]⟩
    | some p =>
      have hle := find_ge_of_noMatchIn pat fixed rest p hno hf
      obtain ⟨rest', h⟩ := ih (replace rest (p - fixed.length) n r)
      exact ⟨rest', by simp only [replaceWhile, hf, replace_append_of_le fixed rest r p n hle, h]⟩

end StdString

namespace StdString

theorem find_bound (pat : Str) :
    ∀ (s : Str) (p : Nat), find s pat = some p → p + pat.length ≤ s.length := by
  intro s
  induction s with
  | nil =>
    intro p h
    by_cases hp : pat = []
    · subst hp; simp [find] at h; subst h; simp
    · simp [find, hp] at h
  | cons c s ih =>
    intro p h
    rw [find] at h
    by_cases hp : pat.isPrefixOf (c :: s) = true
    · rw [if_pos hp] at h
      cases h
      simpa using (List.isPrefixOf_iff_prefix.mp hp).length_le
    · rw [if_neg hp] at h
      cases hf : find s pat with
      | none => rw [hf] at h; cases h
      | some q =>
        rw [hf] at h
        simp only [Option.map_some', Option.some.injEq] at h
        have := ih q hf
        simp only [List.length_cons]
        omega

theorem find_nil_of_ne (pat : Str) (hpat : pat ≠ []) : find [] pat = none := by
  simp [find, hpat]

/-- The keyword loop leaves by its exit test within `s.length` rounds: the result holds no
occurrence of `pat`. -/
theorem eraseWhile_exit (pat : Str) (n : Nat) (hpat : pat ≠ []) (hn : 0 < n) :
    ∀ (fuel : Nat) (s : Str), s.length ≤ fuel → find (eraseWhile pat n fuel s) pat = none := by
  intro fuel
  induction fuel with
  | zero =>
    intro s hs
    have : s = [] := List.eq_nil_of_length_eq_zero (Nat.le_zero.mp hs)
    subst this
    exact find_nil_of_ne pat hpat
  | succ fuel ih =>
    intro s hs
    cases hf : find s pat with
    | none => simp only [eraseWhile, hf]
    | some p =>
      simp only [eraseWhile, hf]
      apply ih
      have hb := find_bound pat s p hf
      have hl : 0 < pat.length := List.length_pos.mpr hpat
      simp only [erase, List.length_append, List.length_take, List.length_drop]
      omega

/-- The repair loop leaves by its exit test within `s.length` rounds, when the text put in is
shorter than the `n` characters of the occurrence it replaces. -/
theorem replaceWhile_exit (pat : Str) (n : Nat) (r : Str) (hpat : pat ≠ [])
    (hn : n ≤ pat.length) (hr : r.length < n) :
    ∀ (fuel : Nat) (s : Str), s.length ≤ fuel →
      find (replaceWhile pat n r fuel s) pat = none := by
  intro fuel
  induction fuel with
  | zero =>
    intro s hs
    have : s = [] := List.eq_nil_of_length_eq_zero (Nat.le_zero.mp hs)
    subst this
    exact find_nil_of_ne pat hpat
  | succ fuel ih =>
    intro s hs
    cases hf : find s pat with
    | none => simp only [replaceWhile, hf]
    | some p =>
      simp only [replaceWhile, hf]
      apply ih
      have hb := find_bound pat s p hf
      simp only [replace, List.length_append, List.length_take, List.length_drop]
      omega

end StdString

namespace FieldVisitor

open StdString in
/-- The normalization keeps a leading text that no keyword and no `_Bool` repair can reach
into, when an angle bracket follows it. -/
theorem normalizeSpelling_keeps (pn : Str)
    (h1 : noMatchIn "class ".toList (pn ++ ['<']) = true)
    (h2 : noMatchIn "struct ".toList (pn ++ ['<']) = true)
    (h3 : noMatchIn "<_Bool".toList pn = true)
    (h4 : noMatchIn " _Bool".toList pn = true) (rest : Str) :
    ∃ rest', normalizeSpelling (pn ++ '<' :: rest) = pn ++ rest' := by
  have e0 : pn ++ '<' :: rest = (pn ++ ['<']) ++ rest := by simp
  obtain ⟨r1, hr1⟩ := eraseWhile_keeps "class ".toList 6 (pn ++ ['<']) h1
    ((pn ++ ['<']) ++ rest).length rest
  obtain ⟨r2, hr2⟩ := eraseWhile_keeps "struct ".toList 7 (pn ++ ['<']) h2
    ((pn ++ ['<']) ++ r1).length r1
  have e2 : (pn ++ ['<']) ++ r2 = pn ++ ('<' :: r2) := by simp
  have h5 : ∃ r3, (match find (pn ++ ('<' :: r2)) "<_Bool".toList with
      | some pos => replace (pn ++ ('<' :: r2)) pos 6 "<bool".toList
      | none => pn ++ ('<' :: r2)) = pn ++ r3 := by
    cases hf : find (pn ++ ('<' :: r2)) "<_Bool".toList with
    | none => exact ⟨_, rfl⟩
    | some p =>
      have hle := find_ge_of_noMatchIn _ pn _ p h3 hf
      exact ⟨_, replace_append_of_le pn _ _ p 6 hle⟩
  obtain ⟨r3, hr3⟩ := h5
  obtain ⟨r4, hr4⟩ := replaceWhile_keeps " _Bool".toList 6 " bool".toList pn h4
    (pn ++ r3).length r3
  refine ⟨r4, ?_⟩
  simp only [normalizeSpelling]
  rw [e0, hr1, hr2, e2, hr3, hr4]

/-- Every key of the table passes through the normalization unchanged, and so does every key
followed by template arguments, up to the arguments. -/
theorem stl_keys_normalize :
    ∀ e ∈ stl_classes, normalizeSpelling e.1 = e.1 ∧
      StdString.noMatchIn "class ".toList (e.1 ++ ['<']) = true ∧
      StdString.noMatchIn "struct ".toList (e.1 ++ ['<']) = true ∧
      StdString.noMatchIn "<_Bool".toList e.1 = true ∧
      StdString.noMatchIn " _Bool".toList e.1 = true ∧
      "std::".toList <+: e.1 := by
  decide

/-- No key of the table is the beginning of another one. -/
theorem stl_keys_unambiguous :
    ∀ e ∈ stl_classes, ∀ e' ∈ stl_classes, (e'.1 <+: e.1 ∨ e.1 <+: e'.1) → e' = e := by
  decide

end FieldVisitor

namespace FieldVisitor

theorem findStlClass_key (e : Str × Bool) (he : e ∈ stl_classes) (rest : Str) :
    findStlClass (e.1 ++ rest) = some e := by
  unfold findStlClass
  cases h : List.find? (fun it => StdString.compare_eq (e.1 ++ rest) it.1.length it.1)
      stl_classes with
  | none =>
    have := List.find?_eq_none.mp h e he
    rw [(compare_eq_iff_starts (e.1 ++ rest) e.1).mpr (List.prefix_append _ _)] at this
    exact absurd rfl this
  | some e' =>
    have hp := List.find?_some h
    have hm := List.mem_of_find?_eq_some h
    have hpre : e'.1 <+: e.1 ++ rest := (compare_eq_iff_starts _ _).mp hp
    have := stl_keys_unambiguous e he e' hm
      (List.prefix_or_prefix_of_prefix hpre (List.prefix_append _ _))
    rw [this]

/-- The normalized spelling of a table key followed by template arguments still starts with
the key. -/
theorem normalizeSpelling_key (e : Str × Bool) (he : e ∈ stl_classes) (suffix : Str)
    (hsuf : isTemplateArgumentSuffix suffix = true) :
    ∃ rest, normalizeSpelling (e.1 ++ suffix) = e.1 ++ rest := by
  obtain ⟨h0, h1, h2, h3, h4, _⟩ := stl_keys_normalize e he
  cases suffix with
  | nil => exact ⟨[], by simpa using h0⟩
  | cons c rest =>
    have hc : c = '<' := by simpa [isTemplateArgumentSuffix] using hsuf
    subst hc
    exact normalizeSpelling_keeps e.1 h1 h2 h3 h4 rest

/-- The branch of `VisitRecordType` for a recognized container: the spelling is a table key
followed by template arguments. -/
theorem VisitRecordType_stl (insts : Instantiations) (rt : RecordType) (fdes : FieldDescription)
    (w : World) (e : Str × Bool) (he : e ∈ stl_classes) (suffix : Str)
    (hsuf : isTemplateArgumentSuffix suffix = true) (hspell : rt.asString = e.1 ++ suffix)
    (hstr : rt.decl.notStringLike) :
    VisitRecordType insts rt fdes w = some (false,
      { fdes with enum_string := "TRICK_STL".toList, is_stl := true,
                  type_name := normalizeSpelling rt.asString, has_stl_clear := e.2,
                  mangled_type_name := fdes.non_canonical_type_name }, w) := by
  obtain ⟨rest, hnorm⟩ := normalizeSpelling_key e he suffix hsuf
  have hstd : StdString.compare_eq (e.1 ++ rest) 5 "std::".toList = true :=
    (compare_eq_iff_starts (e.1 ++ rest) "std::".toList).mpr
      (((stl_keys_normalize e he).2.2.2.2.2).trans (List.prefix_append _ _))
  obtain ⟨s1, s2, s3⟩ := hstr
  unfold VisitRecordType
  simp only [s1, s2, s3, decide_False, Bool.or_self, Bool.false_eq_true, if_false, hspell,
    hnorm, hstd, if_true, findStlClass_key e he rest]
  rfl

theorem containerNames_in_table :
    ∀ c ∈ containerNames, ∀ ns ∈ namespaceSpellings, (ns ++ c.1, c.2) ∈ stl_classes := by
  decide

/-- C4: for each of the eleven container names, each of the three namespace spellings and
every template-argument suffix, `VisitRecordType` on a record (not string-like) spelled
namespace, name, suffix returns `false` with category `TRICK_STL`, the STL flag set and the
clear-support flag that `containerNames` gives the name alone; the IO mask is unchanged. -/
theorem stl_container_classification (insts : Instantiations) (rt : RecordType)
    (fdes : FieldDescription) (w : World) (c : Str × Bool) (ns suffix : Str)
    (hc : c ∈ containerNames) (hns : ns ∈ namespaceSpellings)
    (hsuf : isTemplateArgumentSuffix suffix = true)
    (hspell : rt.asString = ns ++ c.1 ++ suffix) (hstr : rt.decl.notStringLike) :
    ∃ d, VisitRecordType insts rt fdes w = some (false, d, w) ∧
      d.enum_string = "TRICK_STL".toList ∧ d.is_stl = true ∧ d.has_stl_clear = c.2 ∧
      d.io = fdes.io := by
  have he := containerNames_in_table c hc ns hns
  exact ⟨_, VisitRecordType_stl insts rt fdes w (ns ++ c.1, c.2) he suffix hsuf hspell hstr,
    rfl, rfl, rfl, rfl⟩

theorem stl_container_classification_witness :
    ∃ d, VisitRecordType []
        ⟨⟨"std::__cxx11::list".toList, true, none, some true⟩,
          "std::__cxx11::list<struct Foo, class std::allocator<struct Foo> >".toList⟩
        (FieldDescription.fresh "C".toList false) ⟨[], []⟩ = some (false, d, ⟨[], []⟩) ∧
      d.enum_string = "TRICK_STL".toList ∧ d.is_stl = true ∧ d.has_stl_clear = true ∧
      d.io = FieldDescription.ioUnrestricted :=
  stl_container_classification []
    ⟨⟨"std::__cxx11::list".toList, true, none, some true⟩,
      "std::__cxx11::list<struct Foo, class std::allocator<struct Foo> >".toList⟩
    (FieldDescription.fresh "C".toList false) ⟨[], []⟩ ("list".toList, true)
    "std::__cxx11::".toList "<struct Foo, class std::allocator<struct Foo> >".toList
    (by decide) (by decide) (by decide) (by decide) ⟨by decide, by decide, by decide⟩

end FieldVisitor

namespace FieldVisitor

theorem is_bitfield_setBitField (d : FieldDescription) (b : Bool) :
    (d.setBitField b).is_bitfield = b := rfl

/-- The classification of a field whose declared type is not canonical and whose canonical
type is a record: `VisitRecordType` on the descriptor `VisitFieldDecl` has prepared, with the
declared spelling recorded as the non-canonical type name. -/
theorem classifyField_noncanonical_record (offsetOf : Nat → Nat → Nat) (insts : Instantiations)
    (w : World) (field : FieldDecl) (rt : RecordType) (fdes : FieldDescription)
    (hcanon : field.type.isCanonical = false) (hty : field.type.canonicalType = .record rt) :
    ∃ pre, pre.non_canonical_type_name = field.type.asString ∧ pre.io = fdes.io ∧
      ∀ d w', VisitRecordType insts rt pre w = some (false, d, w') →
        classifyField offsetOf insts field fdes w = some (false, d, w') := by
  obtain ⟨off, isbf, width, ⟨spelling, canon, ct⟩, size⟩ := field
  simp only at hcanon hty
  subst hcanon hty
  cases isbf
  · refine ⟨(((fdes.setFieldOffset (off / 8)).setBitField false).setFieldWidth
      (size / 8)).setNonCanonicalTypeName spelling, by simp, by simp, ?_⟩
    intro d w' h
    simp only [classifyField, VisitFieldDecl, TraverseType, VisitType, Bool.not_false,
      Bool.false_eq_true, if_false, if_true, is_bitfield_setBitField, h]
  · refine ⟨((((fdes.setFieldOffset (off / 8)).setBitField true).setBitFieldWidth
      width).calcBitfieldOffset offsetOf |>.setFieldWidth (size / 8)).setNonCanonicalTypeName
      spelling, by simp, by simp, ?_⟩
    intro d w' h
    simp only [classifyField, VisitFieldDecl, TraverseType, VisitType, Bool.not_false,
      Bool.false_eq_true, if_false, if_true, is_bitfield_setBitField, h]

theorem vector_is_clearable : ∀ c ∈ containerNames, c.1 = "vector".toList → c.2 = true := by
  decide

/-- C8: for every field whose declared type, spelled `S`, is not canonical and whose canonical
type is a recognized container (any of the three namespace spellings, any template-argument
suffix), the classification returns with the mangled type name `S`, the non-canonical type
name `S`, category `TRICK_STL` and the STL flag set; for a vector the clear-support flag is
true. -/
theorem stl_field_keeps_user_spelling (offsetOf : Nat → Nat → Nat) (insts : Instantiations)
    (w : World) (field : FieldDecl) (rt : RecordType) (fdes : FieldDescription)
    (c : Str × Bool) (ns suffix : Str)
    (hcanon : field.type.isCanonical = false) (hty : field.type.canonicalType = .record rt)
    (hc : c ∈ containerNames) (hns : ns ∈ namespaceSpellings)
    (hsuf : isTemplateArgumentSuffix suffix = true)
    (hspell : rt.asString = ns ++ c.1 ++ suffix) (hstr : rt.decl.notStringLike) :
    ∃ d, classifyField offsetOf insts field fdes w = some (false, d, w) ∧
      d.mangled_type_name = field.type.asString ∧
      d.non_canonical_type_name = field.type.asString ∧
      d.enum_string = "TRICK_STL".toList ∧ d.is_stl = true ∧
      (c.1 = "vector".toList → d.has_stl_clear = true) := by
  obtain ⟨pre, hpre, _, hrun⟩ :=
    classifyField_noncanonical_record offsetOf insts w field rt fdes hcanon hty
  have he := containerNames_in_table c hc ns hns
  have h := VisitRecordType_stl insts rt pre w (ns ++ c.1, c.2) he suffix hsuf hspell hstr
  exact ⟨_, hrun _ _ h, hpre, hpre, rfl, rfl, fun hv => vector_is_clearable c hc hv⟩

theorem stl_field_keeps_user_spelling_witness :
    ∃ d, classifyField (fun _ _ => 0) []
        ⟨0, false, 0, ⟨"IntVec".toList, false,
          .record ⟨⟨"std::vector".toList, true, none, some true⟩,
            "std::vector<int, std::allocator<int> >".toList⟩⟩, 192⟩
        (FieldDescription.fresh "C".toList false) ⟨[], []⟩ = some (false, d, ⟨[], []⟩) ∧
      d.mangled_type_name = "IntVec".toList ∧ d.non_canonical_type_name = "IntVec".toList ∧
      d.enum_string = "TRICK_STL".toList ∧ d.is_stl = true ∧ d.has_stl_clear = true :=
  let ⟨d, h1, h2, h3, h4, h5, h6⟩ := stl_field_keeps_user_spelling (fun _ _ => 0) [] ⟨[], []⟩
    ⟨0, false, 0, ⟨"IntVec".toList, false,
      .record ⟨⟨"std::vector".toList, true, none, some true⟩,
        "std::vector<int, std::allocator<int> >".toList⟩⟩, 192⟩
    ⟨⟨"std::vector".toList, true, none, some true⟩,
      "std::vector<int, std::allocator<int> >".toList⟩
    (FieldDescription.fresh "C".toList false) ("vector".toList, true) "std::".toList
    "<int, std::allocator<int> >".toList rfl rfl (by decide) (by decide) (by decide)
    (by decide) ⟨by decide, by decide, by decide⟩
  ⟨d, h1, h2, h3, h4, h5, h6 rfl⟩

/-- C10 (the code at the failing input): the record `std::stacktrace_entry` has a normalized
spelling that starts with "std::" and a container name, the whole spelling, that is in no
namespace spelling a recognized container name; `VisitRecordType` matches the table key
"std::stack" as a beginning of the spelling and classifies the record as `TRICK_STL` with the
STL flag set, the IO mask left as it was and not set to 0. -/
theorem unrecognized_std_name_taken_for_container :
    "std::".toList <+: normalizeSpelling "std::stacktrace_entry".toList ∧
    (∀ c ∈ containerNames, ∀ ns ∈ namespaceSpellings,
      containerNameOf (normalizeSpelling "std::stacktrace_entry".toList) ≠ ns ++ c.1) ∧
    findStlClass (normalizeSpelling "std::stacktrace_entry".toList)
      = some ("std::stack".toList, false) ∧
    (VisitRecordType []
        ⟨⟨"std::stacktrace_entry".toList, true, none, some false⟩,
          "std::stacktrace_entry".toList⟩
        (FieldDescription.fresh "C".toList false) ⟨[], []⟩).map
      (fun r => (r.1, r.2.1.enum_string, r.2.1.is_stl, r.2.1.has_stl_clear, r.2.1.io))
      = some (false, "TRICK_STL".toList, true, false, FieldDescription.ioUnrestricted) ∧
    FieldDescription.ioUnrestricted ≠ 0 := by
  refine ⟨by decide, by decide, by decide, by decide, by decide⟩

end FieldVisitor

namespace FieldVisitor

/-- C11: for every record whose declaration's qualified name is "std::basic_string",
"std::__1::basic_string" or "std::__cxx11::basic_string", whatever its printed spelling,
`VisitRecordType` returns `false` (stops descending) with category `TRICK_STRING` and type
name "std::string", and leaves the IO mask, the dimension list, the enum, record and STL
flags and the registry as they were: the string test comes before the "std::" test. -/
theorem string_record_classification (insts : Instantiations) (rt : RecordType)
    (fdes : FieldDescription) (w : World)
    (hname : rt.decl.qualifiedName = "std::basic_string".toList ∨
      rt.decl.qualifiedName = "std::__1::basic_string".toList ∨
      rt.decl.qualifiedName = "std::__cxx11::basic_string".toList) :
    ∃ d, VisitRecordType insts rt fdes w = some (false, d, w) ∧
      d.enum_string = "TRICK_STRING".toList ∧ d.type_name = "std::string".toList ∧
      d.io = fdes.io ∧ d.array_dims = fdes.array_dims ∧ d.is_enum = fdes.is_enum ∧
      d.is_record = fdes.is_record ∧ d.is_stl = fdes.is_stl ∧
      d.has_stl_clear = fdes.has_stl_clear := by
  refine ⟨(fdes.setEnumString "TRICK_STRING".toList).setTypeName "std::string".toList,
    ?_, rfl, rfl, rfl, rfl, rfl, rfl, rfl, rfl⟩
  unfold VisitRecordType
  rcases hname with h | h | h <;> simp [h]

theorem string_record_classification_witness :
    ∃ d, VisitRecordType []
        ⟨⟨"std::__cxx11::basic_string".toList, true, none, some true⟩,
          "std::__cxx11::basic_string<char, std::char_traits<char>, std::allocator<char> >".toList⟩
        (FieldDescription.fresh "C".toList false) ⟨[], []⟩ = some (false, d, ⟨[], []⟩) ∧
      d.enum_string = "TRICK_STRING".toList ∧ d.type_name = "std::string".toList ∧
      d.io = FieldDescription.ioUnrestricted :=
  let ⟨d, h1, h2, h3, h4, _⟩ := string_record_classification []
    ⟨⟨"std::__cxx11::basic_string".toList, true, none, some true⟩,
      "std::__cxx11::basic_string<char, std::char_traits<char>, std::allocator<char> >".toList⟩
    (FieldDescription.fresh "C".toList false) ⟨[], []⟩ (Or.inr (Or.inr rfl))
  ⟨d, h1, h2, h3, h4⟩

theorem sanitize_char (c : Char) :
    ((fun c => if c = '*' then '_' else c) ∘ (fun c => if c = ':' then '_' else c) ∘
        (fun c => if c = ',' then '_' else c) ∘ (fun c => if c = ' ' then '_' else c) ∘
        (fun c => if c = '>' then '_' else c) ∘ (fun c : Char => if c = '<' then '_' else c)) c
      = sanitized c := by
  rw [Function.comp_apply, Function.comp_apply, Function.comp_apply, Function.comp_apply,
    Function.comp_apply]
  unfold sanitized
  by_cases h1 : c = '<'
  · subst h1; decide
  rw [if_neg h1]
  by_cases h2 : c = '>'
  · subst h2; decide
  rw [if_neg h2]
  by_cases h3 : c = ' '
  · subst h3; decide
  rw [if_neg h3]
  by_cases h4 : c = ','
  · subst h4; decide
  rw [if_neg h4]
  by_cases h5 : c = ':'
  · subst h5; decide
  rw [if_neg h5]
  by_cases h6 : c = '*'
  · subst h6; decide
  rw [if_neg h6, if_neg (by simp [h1, h2, h3, h4, h5, h6])]
/-- The function `mangle_string` as one pass: each of the six characters becomes an
underscore, every other character stays. -/
theorem mangle_string_eq_map (s : Str) : mangle_string s = s.map sanitized := by
  have h : mangle_string s
      = s.map ((fun c => if c = '*' then '_' else c) ∘ (fun c => if c = ':' then '_' else c) ∘
        (fun c => if c = ',' then '_' else c) ∘ (fun c => if c = ' ' then '_' else c) ∘
        (fun c => if c = '>' then '_' else c) ∘ (fun c => if c = '<' then '_' else c)) := by
    unfold mangle_string StdString.std_replace
    simp only [List.map_map, Function.comp_assoc]
  rw [h]
  exact List.map_congr_left (fun c _ => sanitize_char c)

theorem mangle_string_length (s : Str) : (mangle_string s).length = s.length := by
  rw [mangle_string_eq_map, List.length_map]

end FieldVisitor

namespace FieldVisitor

/-- C18: on a miss for `s` from a descriptor of containing class `C` and member name `N`,
`ProcessTemplate` returns `false`, stores for `s` the identifier `C ++ "_" ++ N ++ "_" ++ m`
and writes it to the descriptor as the mangled type name, with category `TRICK_STRUCTURED`
and the record flag set; `m` is as long as `s`, holds '_' wherever `s` holds one of
'<', '>', ' ', ',', ':', '*' and the character of `s` everywhere else.  On a hit the stored
identifier is written to the descriptor and the state is returned as it was. -/
theorem processTemplate_miss_and_hit (insts : Instantiations) (s : Str)
    (fdes : FieldDescription) (w : World) :
    (StdMap.find w.processed_templates s = none →
      ∃ d w' m, ProcessTemplate insts s fdes w = some (false, d, w') ∧
        StdMap.find w'.processed_templates s
          = some (fdes.container_class ++ "_".toList ++ fdes.name ++ "_".toList ++ m) ∧
        d.mangled_type_name = fdes.container_class ++ "_".toList ++ fdes.name ++ "_".toList ++ m ∧
        d.enum_string = "TRICK_STRUCTURED".toList ∧ d.is_record = true ∧
        m.length = s.length ∧
        ∀ i (hi : i < s.length) (hm : i < m.length),
          (s[i] ∈ ['<', '>', ' ', ',', ':', '*'] → m[i] = '_') ∧
          (s[i] ∉ ['<', '>', ' ', ',', ':', '*'] → m[i] = s[i])) ∧
    (∀ id, StdMap.find w.processed_templates s = some id →
      ∃ d, ProcessTemplate insts s fdes w = some (false, d, w) ∧
        d.mangled_type_name = id ∧ d.enum_string = "TRICK_STRUCTURED".toList ∧
        d.is_record = true) := by
  refine ⟨?_, ?_⟩
  · intro hmiss
    obtain ⟨w', hrun, hfind, _, _⟩ := ProcessTemplate_returns insts s fdes w
    have hid : storedId w fdes s = generatedId fdes s := by simp [storedId, hmiss]
    rw [hid] at hrun hfind
    refine ⟨_, w', mangle_string s, hrun, hfind, rfl, rfl, rfl, mangle_string_length s, ?_⟩
    intro i hi hm
    have hget : (mangle_string s)[i] = sanitized s[i] := by
      simp only [mangle_string_eq_map, List.getElem_map]
    rw [hget]
    simp only [List.mem_cons, List.mem_singleton, List.not_mem_nil, or_false, sanitized]
    exact ⟨fun h => if_pos h, fun h => if_neg h⟩
  · intro id hhit
    exact ⟨_, ProcessTemplateFuel_hit insts insts.length s fdes w id hhit, rfl, rfl, rfl⟩

/-- C16 (the code at the failing input): for the member `A<-1> m;` of class `C`, class and
member names made of symbol characters only, `ProcessTemplate` misses and stores the
identifier "C_m_A_-1_": the minus sign is none of the six characters `mangle_string`
replaces, and the identifier is not made of letters, digits and underscores only. -/
theorem generated_identifier_keeps_unsafe_character :
    "C".toList.all isSymbolChar = true ∧ "m".toList.all isSymbolChar = true ∧
    (ProcessTemplate [] "A<-1>".toList
        { FieldDescription.fresh "C".toList false with name := "m".toList } ⟨[], []⟩).map
      (fun r => (r.2.1.mangled_type_name, r.2.2.processed_templates))
      = some ("C_m_A_-1_".toList, [("A<-1>".toList, "C_m_A_-1_".toList)]) ∧
    "C_m_A_-1_".toList.all isSymbolChar = false := by
  refine ⟨by decide, by decide, by decide, by decide⟩

/-- C20 (the code at the failing input): the spelling of a vector of booleans holds `<_Bool`
twice; the repair of `<_Bool` is a single `if`, so only the first occurrence is rewritten
and the normalized spelling still holds "_Bool" right after an angle bracket (at position
32).  The loop that repairs " _Bool" leaves no occurrence. -/
theorem second_angle_Bool_survives :
    normalizeSpelling "std::vector<_Bool, std::allocator<_Bool> >".toList
      = "std::vector<bool, std::allocator<_Bool> >".toList ∧
    StdString.find (normalizeSpelling "std::vector<_Bool, std::allocator<_Bool> >".toList)
      "<_Bool".toList = some 32 ∧
    StdString.find (normalizeSpelling "std::vector<_Bool, std::allocator<_Bool> >".toList)
      " _Bool".toList = none := by
  refine ⟨by decide, by decide, by decide⟩

end FieldVisitor

namespace StdString

theorem find_self_append (c : Char) (p rest : Str) :
    find ((c :: p) ++ rest) (c :: p) = some 0 := by
  have h : (c :: p).isPrefixOf (c :: (p ++ rest)) = true :=
    List.isPrefixOf_iff_prefix.mpr (by rw [← List.cons_append]; exact List.prefix_append _ _)
  rw [List.cons_append, find, if_pos h]

theorem find_char_none (c : Char) : ∀ s : Str, c ∉ s → find s [c] = none := by
  intro s
  induction s with
  | nil => intro _; simp [find]
  | cons x s ih =>
    intro h
    have hx : x ≠ c := fun e => h (by simp [e])
    have hs : c ∉ s := fun e => h (List.mem_cons_of_mem _ e)
    have hp : [c].isPrefixOf (x :: s) = false := by
      simp [List.isPrefixOf, Ne.symm hx]
    rw [find, hp, ih hs]
    rfl

theorem find_char_first (c : Char) : ∀ (p rest : Str), c ∉ p →
    find (p ++ c :: rest) [c] = some p.length := by
  intro p
  induction p with
  | nil =>
    intro rest _
    have hp : [c].isPrefixOf (c :: rest) = true := by simp [List.isPrefixOf]
    rw [List.nil_append, find, if_pos hp]
    rfl
  | cons x p ih =>
    intro rest h
    have hx : x ≠ c := fun e => h (by simp [e])
    have hs : c ∉ p := fun e => h (List.mem_cons_of_mem _ e)
    have hp : [c].isPrefixOf (x :: (p ++ c :: rest)) = false := by
      simp [List.isPrefixOf, Ne.symm hx]
    rw [List.cons_append, find, hp, ih rest hs]
    rfl

theorem find_last_of_none (chars : Str) : ∀ s : Str, (∀ x ∈ s, x ∉ chars) →
    find_last_of s chars = none := by
  intro s
  induction s with
  | nil => intro _; rfl
  | cons x s ih =>
    intro h
    have hx : x ∉ chars := h x (List.mem_cons_self _ _)
    rw [find_last_of, ih (fun y hy => h y (List.mem_cons_of_mem _ hy))]
    simp [hx]

theorem find_last_of_last (chars : Str) (l : Char) (hl : l ∈ chars) (tail : Str)
    (htail : ∀ x ∈ tail, x ∉ chars) :
    ∀ front : Str, find_last_of (front ++ l :: tail) chars = some front.length := by
  intro front
  induction front with
  | nil =>
    rw [List.nil_append, find_last_of, find_last_of_none chars tail htail]
    simp [hl]
  | cons x front ih =>
    rw [List.cons_append, find_last_of, ih]
    rfl

end StdString

namespace FieldVisitor

/-- What `VisitEnumType` does besides computing the type name. -/
theorem VisitEnumType_fields (et : EnumType) (fdes : FieldDescription) :
    (VisitEnumType et fdes).1 = true ∧
    (VisitEnumType et fdes).2.enum_string = "TRICK_ENUMERATED".toList ∧
    (VisitEnumType et fdes).2.is_enum = true ∧
    (VisitEnumType et fdes).2.mangled_type_name = [] ∧
    (VisitEnumType et fdes).2.io = fdes.io ∧
    (VisitEnumType et fdes).2.array_dims = fdes.array_dims := by
  simp [VisitEnumType]

theorem VisitEnumType_plain (fdes : FieldDescription) (name : Str) (hname : '<' ∉ name) :
    (VisitEnumType ⟨"enum ".toList ++ name⟩ fdes).2.type_name = name := by
  have h1 : StdString.find ("enum ".toList ++ name) "enum ".toList = some 0 :=
    StdString.find_self_append 'e' "num ".toList name
  have h2 : StdString.erase ("enum ".toList ++ name) 0 5 = name := by
    simp [StdString.erase]
  have h3 : StdString.find name "<".toList = none := StdString.find_char_none '<' name hname
  simp only [VisitEnumType, h1, h2, h3]
  rfl

theorem VisitEnumType_template (fdes : FieldDescription) (pre args name : Str)
    (hpre : '<' ∉ pre) (hname : ∀ c ∈ name, c ≠ '<' ∧ c ≠ '>' ∧ c ≠ ':')
    (hlen : args.length + 4 < 2 ^ 64) :
    (VisitEnumType ⟨"enum ".toList ++ pre ++ "<".toList ++ args ++ ">::".toList ++ name⟩
      fdes).2.type_name = pre ++ "__".toList ++ name := by
  have e0 : "enum ".toList ++ pre ++ "<".toList ++ args ++ ">::".toList ++ name
      = "enum ".toList ++ (pre ++ '<' :: (args ++ '>' :: ':' :: ':' :: name)) := by
    simp
  have h1 : StdString.find ("enum ".toList ++ (pre ++ '<' :: (args ++ '>' :: ':' :: ':' :: name)))
      "enum ".toList = some 0 :=
    StdString.find_self_append 'e' "num ".toList _
  have h2 : StdString.erase
      ("enum ".toList ++ (pre ++ '<' :: (args ++ '>' :: ':' :: ':' :: name))) 0 5
      = pre ++ '<' :: (args ++ '>' :: ':' :: ':' :: name) := by
    simp [StdString.erase]
  have h3 : StdString.find (pre ++ '<' :: (args ++ '>' :: ':' :: ':' :: name)) "<".toList
      = some pre.length :=
    StdString.find_char_first '<' pre _ hpre
  have e4 : pre ++ '<' :: (args ++ '>' :: ':' :: ':' :: name)
      = (pre ++ '<' :: (args ++ ['>', ':'])) ++ ':' :: name := by
    simp
  have h4 : StdString.find_last_of (pre ++ '<' :: (args ++ '>' :: ':' :: ':' :: name))
      ">::".toList = some (pre.length + args.length + 3) := by
    rw [e4, StdString.find_last_of_last ">::".toList ':' (by decide) name
      (fun x hx => by
        have := hname x hx
        simp [this.2.1, this.2.2])]
    simp
    omega
  have h5 : (pre.length + args.length + 3 + 2 ^ 64 - pre.length + 1) % 2 ^ 64
      = args.length + 4 := by
    have : pre.length + args.length + 3 + 2 ^ 64 - pre.length + 1
        = (args.length + 4) + 2 ^ 64 := by omega
    rw [this, Nat.add_mod_right, Nat.mod_eq_of_lt hlen]
  have h6 : StdString.replace (pre ++ '<' :: (args ++ '>' :: ':' :: ':' :: name)) pre.length
      (args.length + 4) "__".toList = pre ++ "__".toList ++ name := by
    have d : List.drop (pre.length + (args.length + 4))
        (pre ++ '<' :: (args ++ '>' :: ':' :: ':' :: name)) = name := by
      have e : pre ++ '<' :: (args ++ '>' :: ':' :: ':' :: name)
          = (pre ++ '<' :: (args ++ ['>', ':', ':'])) ++ name := by simp
      rw [e]
      apply List.drop_left'
      simp
    simp only [StdString.replace, d]
    rw [List.take_left' rfl]
  simp only [VisitEnumType, e0, h1, h2, h3, h4, Option.getD_some, h5, h6]
  rfl

end FieldVisitor

namespace FieldVisitor

/-- C19: `VisitEnumType` on the printed spelling "enum " ++ N, with no '<' in N, gives the
type name N; on "enum " ++ P ++ "<" ++ A ++ ">::" ++ N (a `std::string`, so shorter than
2^64), with no '<' in P and none of '<', '>', ':' in N, it gives P ++ "__" ++ N, which holds
no '<' (and no '>' unless P does).  In every case it returns `true`, the category becomes
`TRICK_ENUMERATED`, the enum flag is set, the mangled type name is cleared, and the IO mask
and the dimension list are unchanged. -/
theorem enum_type_name (et : EnumType) (fdes : FieldDescription) :
    (∀ name : Str, '<' ∉ name → et.asString = "enum ".toList ++ name →
      (VisitEnumType et fdes).2.type_name = name) ∧
    (∀ pre args name : Str, '<' ∉ pre → (∀ c ∈ name, c ≠ '<' ∧ c ≠ '>' ∧ c ≠ ':') →
      et.asString = "enum ".toList ++ pre ++ "<".toList ++ args ++ ">::".toList ++ name →
      et.asString.length < 2 ^ 64 →
      (VisitEnumType et fdes).2.type_name = pre ++ "__".toList ++ name ∧
      '<' ∉ (VisitEnumType et fdes).2.type_name ∧
      ('>' ∉ pre → '>' ∉ (VisitEnumType et fdes).2.type_name)) ∧
    (VisitEnumType et fdes).1 = true ∧
    (VisitEnumType et fdes).2.enum_string = "TRICK_ENUMERATED".toList ∧
    (VisitEnumType et fdes).2.is_enum = true ∧
    (VisitEnumType et fdes).2.mangled_type_name = [] ∧
    (VisitEnumType et fdes).2.io = fdes.io ∧
    (VisitEnumType et fdes).2.array_dims = fdes.array_dims ∧
    (VisitEnumType ⟨"enum Outer<T>::Color".toList⟩ fdes).2.type_name = "Outer__Color".toList := by
  obtain ⟨spelling⟩ := et
  obtain ⟨f1, f2, f3, f4, f5, f6⟩ := VisitEnumType_fields ⟨spelling⟩ fdes
  refine ⟨?_, ?_, f1, f2, f3, f4, f5, f6, ?_⟩
  · intro name hname hs
    simp only at hs
    subst hs
    exact VisitEnumType_plain fdes name hname
  · intro pre args name hpre hname hs hlen
    simp only at hs hlen
    subst hs
    have hl : args.length + 4 < 2 ^ 64 := by
      simp only [List.length_append] at hlen
      have : "<".toList.length = 1 := rfl
      have : ">::".toList.length = 3 := rfl
      omega
    have h := VisitEnumType_template fdes pre args name hpre hname hl
    rw [h]
    refine ⟨rfl, ?_, ?_⟩
    · intro hmem
      simp only [List.mem_append] at hmem
      rcases hmem with (h1 | h1) | h1
      · exact hpre h1
      · revert h1; decide
      · exact (hname _ h1).1 rfl
    · intro hp hmem
      simp only [List.mem_append] at hmem
      rcases hmem with (h1 | h1) | h1
      · exact hp h1
      · revert h1; decide
      · exact (hname _ h1).2.1 rfl
  · have := VisitEnumType_template fdes "Outer".toList "T".toList "Color".toList
      (by decide) (by decide) (by decide)
    simpa using this

end FieldVisitor

namespace FieldVisitor

theorem VisitBuiltinType_setIO (bt : BuiltinType) (fdes : FieldDescription) (v : Nat) :
    VisitBuiltinType bt (fdes.setIO v)
      = ((VisitBuiltinType bt fdes).1, FieldDescription.setIO (VisitBuiltinType bt fdes).2 v) := by
  obtain ⟨k, s⟩ := bt
  cases hb : fdes.is_bitfield <;> cases k <;>
    simp [VisitBuiltinType, hb, BuiltinType.isUnsignedInteger]

theorem ProcessTemplateFuel_setIO (insts : Instantiations) (fuel : Nat) (s : Str)
    (fdes : FieldDescription) (w : World) (v : Nat) :
    ProcessTemplateFuel insts fuel s (fdes.setIO v) w
      = (ProcessTemplateFuel insts fuel s fdes w).map (fun r => (r.1, FieldDescription.setIO r.2.1 v, r.2.2)) := by
  cases fuel with
  | zero => rfl
  | succ fuel =>
    simp only [ProcessTemplateFuel, FieldDescription.setIO]
    split <;> rfl

theorem VisitRecordType_setIO_zero (insts : Instantiations) (rt : RecordType)
    (fdes : FieldDescription) (w : World) :
    VisitRecordType insts rt (fdes.setIO 0) w
      = (VisitRecordType insts rt fdes w).map (fun r => (r.1, FieldDescription.setIO r.2.1 0, r.2.2)) := by
  unfold VisitRecordType
  simp only
  split
  · rfl
  · split
    · split <;> rfl
    · split
      · exact ProcessTemplateFuel_setIO insts _ _ fdes w 0
      · cases rt.decl.hasNameForLinkage <;> cases rt.decl.hasDeclName <;> rfl

/-- The walk from a descriptor whose IO mask is 0 is the walk from the descriptor itself,
with the IO mask of the result set to 0. -/
theorem TraverseType_setIO_zero (insts : Instantiations) :
    ∀ (ty : Ty) (fdes : FieldDescription) (w : World),
      TraverseType insts ty (fdes.setIO 0) w
        = (TraverseType insts ty fdes w).map (fun r => (r.1, FieldDescription.setIO r.2.1 0, r.2.2)) := by
  intro ty
  induction ty with
  | builtin bt =>
    intro fdes w
    simp only [TraverseType, VisitType, Bool.false_eq_true, if_false, VisitBuiltinType_setIO,
      Option.map_some']
  | constantArray size element ih =>
    intro fdes w
    simp only [TraverseType, VisitType, Bool.false_eq_true, if_false, VisitConstantArrayType]
    exact ih (fdes.addArrayDim size) w
  | pointer pointee ih =>
    intro fdes w
    simp only [TraverseType, VisitType, Bool.false_eq_true, if_false, VisitPointerType]
    exact ih (fdes.addArrayDim (-1)) w
  | reference pointee ih =>
    intro fdes w
    simp only [TraverseType, VisitType, if_true]
    have e : FieldDescription.setIO (fdes.setIO 0) 0 = fdes.setIO 0 := rfl
    rw [e, ih fdes w, Option.map_map]
    rfl
  | enum et =>
    intro fdes w
    simp only [TraverseType, VisitType, Bool.false_eq_true, if_false, Option.map_some']
    rfl
  | record rt =>
    intro fdes w
    simp only [TraverseType, VisitType, Bool.false_eq_true, if_false]
    exact VisitRecordType_setIO_zero insts rt fdes w

/-- C12: for a type with a reference node on top of `T`, the walk returns with the IO mask 0,
whatever it was before, and with the category, type name and dimension list of the walk
over `T` itself (and its flags, mangled type name and resulting registry as well). -/
theorem reference_disables_io_keeps_shape (insts : Instantiations) (referenced : Ty)
    (fdes : FieldDescription) (w : World) :
    ∃ b direct viaRef w', TraverseType insts referenced fdes w = some (b, direct, w') ∧
      TraverseType insts (.reference referenced) fdes w = some (b, viaRef, w') ∧
      viaRef.io = 0 ∧
      viaRef.enum_string = direct.enum_string ∧ viaRef.type_name = direct.type_name ∧
      viaRef.array_dims = direct.array_dims ∧ viaRef = direct.setIO 0 := by
  obtain ⟨r, hr, _, _⟩ := TraverseType_returns insts referenced fdes w
  refine ⟨r.1, r.2.1, FieldDescription.setIO r.2.1 0, r.2.2, hr, ?_, rfl, rfl, rfl, rfl, rfl⟩
  simp only [TraverseType, VisitType, if_true]
  rw [TraverseType_setIO_zero insts referenced fdes w, hr]
  rfl

end FieldVisitor

namespace FieldVisitor

theorem VisitBuiltinType_retag (bt : BuiltinType) (fdes : FieldDescription) (s m : Str) :
    VisitBuiltinType bt ((fdes.setNonCanonicalTypeName s).setMangledTypeName m)
      = ((VisitBuiltinType bt fdes).1,
        ((VisitBuiltinType bt fdes).2.setNonCanonicalTypeName s).setMangledTypeName m) := by
  obtain ⟨k, n⟩ := bt
  cases hb : fdes.is_bitfield <;> cases k <;>
    simp [VisitBuiltinType, hb, BuiltinType.isUnsignedInteger]

theorem ProcessTemplateFuel_retag (insts : Instantiations) (fuel : Nat) (in_name : Str)
    (fdes : FieldDescription) (w : World) (s m : Str) :
    ProcessTemplateFuel insts fuel in_name
        ((fdes.setNonCanonicalTypeName s).setMangledTypeName m) w
      = (ProcessTemplateFuel insts fuel in_name fdes w).map
          (fun r => (r.1, r.2.1.setNonCanonicalTypeName s, r.2.2)) := by
  cases fuel with
  | zero => rfl
  | succ fuel =>
    simp only [ProcessTemplateFuel, FieldDescription.setNonCanonicalTypeName,
      FieldDescription.setMangledTypeName]
    split <;> rfl

theorem VisitRecordType_retag (insts : Instantiations) (rt : RecordType)
    (fdes : FieldDescription) (w : World) (s m : Str)
    (r : Bool × FieldDescription × World) (hr : VisitRecordType insts rt fdes w = some r) :
    ∃ m', VisitRecordType insts rt ((fdes.setNonCanonicalTypeName s).setMangledTypeName m) w
      = some (r.1, (r.2.1.setNonCanonicalTypeName s).setMangledTypeName m', r.2.2) := by
  unfold VisitRecordType at hr ⊢
  simp only at hr ⊢
  split at hr
  · rename_i h
    cases hr
    exact ⟨m, by rw [if_pos h]; rfl⟩
  · rename_i h
    rw [if_neg h]
    split at hr
    · rename_i h2
      rw [if_pos h2]
      split at hr
      · rename_i it hit
        cases hr
        exact ⟨s, rfl⟩
      · rename_i hit
        cases hr
        exact ⟨m, rfl⟩
    · rename_i h2
      rw [if_neg h2]
      split at hr
      · rename_i h3
        rw [if_pos h3]
        refine ⟨r.2.1.mangled_type_name, ?_⟩
        have := ProcessTemplateFuel_retag insts (insts.length + 1)
          (normalizeSpelling rt.asString) fdes w s m
        unfold ProcessTemplate at hr ⊢
        rw [this, hr]
        rfl
      · rename_i h3
        rw [if_neg h3]
        cases hr
        refine ⟨m, ?_⟩
        cases rt.decl.hasNameForLinkage <;> cases rt.decl.hasDeclName <;> rfl

/-- The walk from a descriptor that differs in its non-canonical and mangled type names only
ends in a descriptor that differs from the other result in those two names only. -/
theorem TraverseType_retag (insts : Instantiations) :
    ∀ (ty : Ty) (fdes : FieldDescription) (w : World) (s m : Str)
      (r : Bool × FieldDescription × World), TraverseType insts ty fdes w = some r →
      ∃ m', TraverseType insts ty ((fdes.setNonCanonicalTypeName s).setMangledTypeName m) w
        = some (r.1, (r.2.1.setNonCanonicalTypeName s).setMangledTypeName m', r.2.2) := by
  intro ty
  induction ty with
  | builtin bt =>
    intro fdes w s m r hr
    simp only [TraverseType, VisitType, Bool.false_eq_true, if_false, Option.some.injEq] at hr
    subst hr
    exact ⟨m, by simp only [TraverseType, VisitType, Bool.false_eq_true, if_false,
      VisitBuiltinType_retag]⟩
  | constantArray size element ih =>
    intro fdes w s m r hr
    simp only [TraverseType, VisitType, Bool.false_eq_true, if_false,
      VisitConstantArrayType] at hr ⊢
    exact ih (fdes.addArrayDim size) w s m r hr
  | pointer pointee ih =>
    intro fdes w s m r hr
    simp only [TraverseType, VisitType, Bool.false_eq_true, if_false, VisitPointerType] at hr ⊢
    exact ih (fdes.addArrayDim (-1)) w s m r hr
  | reference pointee ih =>
    intro fdes w s m r hr
    simp only [TraverseType, VisitType, if_true] at hr ⊢
    exact ih (fdes.setIO 0) w s m r hr
  | enum et =>
    intro fdes w s m r hr
    simp only [TraverseType, VisitType, Bool.false_eq_true, if_false, Option.some.injEq] at hr
    subst hr
    exact ⟨[], by simp only [TraverseType, VisitType, Bool.false_eq_true, if_false]; rfl⟩
  | record rt =>
    intro fdes w s m r hr
    simp only [TraverseType, VisitType, Bool.false_eq_true, if_false] at hr ⊢
    exact VisitRecordType_retag insts rt fdes w s m r hr

end FieldVisitor

namespace FieldVisitor

theorem VisitFieldDecl_noncanonical (offsetOf : Nat → Nat → Nat) (insts : Instantiations)
    (field : FieldDecl) (fdes : FieldDescription) (w : World)
    (h : field.type.isCanonical = false) :
    VisitFieldDecl offsetOf insts field fdes w
      = (TraverseType insts field.type.canonicalType
          ((preparedDescriptor offsetOf field fdes).setNonCanonicalTypeName field.type.asString)
          w).map (fun r => (false, r.2.1, r.2.2)) := by
  unfold VisitFieldDecl preparedDescriptor
  simp only [h, Bool.not_false, if_true]
  cases TraverseType insts field.type.canonicalType _ w <;> rfl

theorem VisitFieldDecl_canonical (offsetOf : Nat → Nat → Nat) (insts : Instantiations)
    (field : FieldDecl) (fdes : FieldDescription) (w : World)
    (h : field.type.isCanonical = true) :
    VisitFieldDecl offsetOf insts field fdes w
      = some (true, preparedDescriptor offsetOf field fdes, w) := by
  unfold VisitFieldDecl preparedDescriptor
  simp only [h, Bool.not_true, Bool.false_eq_true, if_false]

theorem preparedDescriptor_frame (offsetOf : Nat → Nat → Nat) (field : FieldDecl)
    (fdes : FieldDescription) :
    (preparedDescriptor offsetOf field fdes).non_canonical_type_name
      = fdes.non_canonical_type_name ∧
    (preparedDescriptor offsetOf field fdes).array_dims = fdes.array_dims := by
  unfold preparedDescriptor
  cases field.isBitField <;> simp

/-- C13: for a field whose declared type is not canonical, `VisitFieldDecl` returns `false`
(so the declared type is never walked) after the walk over the canonical type, with the
declared spelling as the non-canonical type name; the category, type name, record, enum and
STL flags and the dimension list are those of the classification of the same field declared
directly with the canonical type, and the dimension list has one entry per array or pointer
level.  For a field whose declared type is canonical, `VisitFieldDecl` returns `true` and
leaves the non-canonical type name as it was. -/
theorem noncanonical_field_classified_once (offsetOf : Nat → Nat → Nat)
    (insts : Instantiations) (field : FieldDecl) (fdes : FieldDescription) (w : World) :
    (field.type.isCanonical = false →
      ∃ d w', VisitFieldDecl offsetOf insts field fdes w = some (false, d, w') ∧
        classifyField offsetOf insts field fdes w = some (false, d, w') ∧
        d.non_canonical_type_name = field.type.asString ∧
        d.array_dims = fdes.array_dims ++ field.type.canonicalType.levels ∧
        ∀ spelling, ∃ b d',
          classifyField offsetOf insts (field.withCanonicalType spelling) fdes w
            = some (b, d', w') ∧
          d.enum_string = d'.enum_string ∧ d.type_name = d'.type_name ∧
          d.is_record = d'.is_record ∧ d.is_enum = d'.is_enum ∧ d.is_stl = d'.is_stl ∧
          d.array_dims = d'.array_dims) ∧
    (field.type.isCanonical = true →
      ∃ d, VisitFieldDecl offsetOf insts field fdes w = some (true, d, w) ∧
        d.non_canonical_type_name = fdes.non_canonical_type_name) := by
  refine ⟨?_, ?_⟩
  · intro hnc
    obtain ⟨r, hr, _, hdims⟩ := TraverseType_returns insts field.type.canonicalType
      (preparedDescriptor offsetOf field fdes) w
    obtain ⟨m', hm'⟩ := TraverseType_retag insts field.type.canonicalType
      (preparedDescriptor offsetOf field fdes) w field.type.asString
      (preparedDescriptor offsetOf field fdes).mangled_type_name r hr
    have hvisit : VisitFieldDecl offsetOf insts field fdes w = some (false,
        (r.2.1.setNonCanonicalTypeName field.type.asString).setMangledTypeName m', r.2.2) := by
      rw [VisitFieldDecl_noncanonical offsetOf insts field fdes w hnc]
      have e : (preparedDescriptor offsetOf field fdes).setNonCanonicalTypeName
          field.type.asString
          = ((preparedDescriptor offsetOf field fdes).setNonCanonicalTypeName
              field.type.asString).setMangledTypeName
                (preparedDescriptor offsetOf field fdes).mangled_type_name := rfl
      rw [e, hm']
      rfl
    refine ⟨_, r.2.2, hvisit, ?_, rfl, ?_, ?_⟩
    · simp only [classifyField, hvisit, Bool.false_eq_true, if_false]
    · show r.2.1.array_dims = _
      rw [hdims, (preparedDescriptor_frame offsetOf field fdes).2]
    · intro spelling
      refine ⟨r.1, r.2.1, ?_, rfl, rfl, rfl, rfl, rfl, rfl⟩
      have hc : (field.withCanonicalType spelling).type.isCanonical = true := rfl
      have hp : preparedDescriptor offsetOf (field.withCanonicalType spelling) fdes
          = preparedDescriptor offsetOf field fdes := rfl
      simp only [classifyField, VisitFieldDecl_canonical offsetOf insts
        (field.withCanonicalType spelling) fdes w hc, if_true, hp]
      exact hr
  · intro hc
    exact ⟨_, VisitFieldDecl_canonical offsetOf insts field fdes w hc,
      (preparedDescriptor_frame offsetOf field fdes).1⟩

end FieldVisitor

namespace FieldVisitor

theorem VisitBuiltinType_flags (bt : BuiltinType) (fdes : FieldDescription) :
    (VisitBuiltinType bt fdes).2.is_enum = fdes.is_enum ∧
    (VisitBuiltinType bt fdes).2.is_record = fdes.is_record ∧
    (VisitBuiltinType bt fdes).2.is_stl = fdes.is_stl ∧
    (VisitBuiltinType bt fdes).2.has_stl_clear = fdes.has_stl_clear := by
  obtain ⟨k, s⟩ := bt
  cases hb : fdes.is_bitfield <;> cases k <;>
    simp [VisitBuiltinType, hb, BuiltinType.isUnsignedInteger]

theorem VisitRecordType_flags (insts : Instantiations) (rt : RecordType)
    (fdes : FieldDescription) (w : World) :
    ∃ r, VisitRecordType insts rt fdes w = some r ∧ FlagsStep fdes r.2.1 := by
  unfold VisitRecordType
  simp only
  split
  · exact ⟨_, rfl, Or.inl ⟨rfl, rfl, rfl, rfl⟩⟩
  · split
    · split
      · exact ⟨_, rfl, Or.inr (Or.inr (Or.inr ⟨rfl, rfl, rfl⟩))⟩
      · exact ⟨_, rfl, Or.inl ⟨rfl, rfl, rfl, rfl⟩⟩
    · split
      · obtain ⟨w', h, _⟩ :=
          ProcessTemplate_returns insts (normalizeSpelling rt.asString) fdes w
        exact ⟨_, h, Or.inr (Or.inr (Or.inl ⟨rfl, rfl, rfl, rfl⟩))⟩
      · refine ⟨_, rfl, Or.inr (Or.inr (Or.inl ?_))⟩
        cases rt.decl.hasNameForLinkage <;> cases rt.decl.hasDeclName <;> simp

/-- The walk changes the flags of the descriptor by one `FlagsStep`. -/
theorem TraverseType_flags (insts : Instantiations) :
    ∀ (ty : Ty) (fdes : FieldDescription) (w : World),
      ∃ r, TraverseType insts ty fdes w = some r ∧ FlagsStep fdes r.2.1 := by
  intro ty
  induction ty with
  | builtin bt =>
    intro fdes w
    exact ⟨_, rfl, Or.inl (by simpa [VisitType] using VisitBuiltinType_flags bt fdes)⟩
  | constantArray size element ih =>
    intro fdes w
    obtain ⟨r, hr, hf⟩ := ih (fdes.addArrayDim size) w
    exact ⟨r, by simpa [TraverseType, VisitType, VisitConstantArrayType] using hr, hf⟩
  | pointer pointee ih =>
    intro fdes w
    obtain ⟨r, hr, hf⟩ := ih (fdes.addArrayDim (-1)) w
    exact ⟨r, by simpa [TraverseType, VisitType, VisitPointerType] using hr, hf⟩
  | reference pointee ih =>
    intro fdes w
    obtain ⟨r, hr, hf⟩ := ih (fdes.setIO 0) w
    exact ⟨r, by simpa [TraverseType, VisitType] using hr, hf⟩
  | enum et =>
    intro fdes w
    exact ⟨_, rfl, Or.inr (Or.inl (by simp [VisitEnumType, VisitType]))⟩
  | record rt =>
    intro fdes w
    obtain ⟨r, hr, hf⟩ := VisitRecordType_flags insts rt fdes w
    exact ⟨r, by simpa [TraverseType, VisitType] using hr, hf⟩

/-- C15: from a fresh descriptor, the enum, record, STL and clear-support flags all false,
the walk over any type built from reference, pointer, array, builtin, enumerated and record
nodes returns a descriptor on which at most one of the enum flag, the record flag and the
STL flag is true, and the clear-support flag is true only if the STL flag is. -/
theorem at_most_one_classification_flag (insts : Instantiations) (ty : Ty)
    (fdes : FieldDescription) (w : World)
    (henum : fdes.is_enum = false) (hrecord : fdes.is_record = false)
    (hstl : fdes.is_stl = false) (hclear : fdes.has_stl_clear = false) :
    ∃ b d w', TraverseType insts ty fdes w = some (b, d, w') ∧
      ¬ (d.is_enum = true ∧ d.is_record = true) ∧
      ¬ (d.is_enum = true ∧ d.is_stl = true) ∧
      ¬ (d.is_record = true ∧ d.is_stl = true) ∧
      (d.has_stl_clear = true → d.is_stl = true) := by
  obtain ⟨r, hr, hf⟩ := TraverseType_flags insts ty fdes w
  refine ⟨r.1, r.2.1, r.2.2, hr, ?_⟩
  unfold FlagsStep at hf
  rw [henum, hrecord, hstl, hclear] at hf
  rcases hf with ⟨h1, h2, h3, h4⟩ | ⟨h1, h2, h3, h4⟩ | ⟨h1, h2, h3, h4⟩ | ⟨h1, h2, h3⟩ <;>
    simp_all

theorem at_most_one_classification_flag_witness :
    ∃ b d w', TraverseType [] (.pointer (.record
        ⟨⟨"std::vector".toList, true, none, some true⟩,
          "std::vector<int, std::allocator<int> >".toList⟩))
        (FieldDescription.fresh "C".toList false) ⟨[], []⟩ = some (b, d, w') ∧
      ¬ (d.is_enum = true ∧ d.is_record = true) ∧
      ¬ (d.is_enum = true ∧ d.is_stl = true) ∧
      ¬ (d.is_record = true ∧ d.is_stl = true) ∧
      (d.has_stl_clear = true → d.is_stl = true) :=
  at_most_one_classification_flag [] _ (FieldDescription.fresh "C".toList false) ⟨[], []⟩
    rfl rfl rfl rfl

end FieldVisitor

namespace FieldVisitor

theorem Grows.same (w : World) : Grows w w := ⟨fun _ _ h => h, fun _ _ h => Or.inl h⟩

theorem Grows.chain {w1 w2 w3 : World} (h12 : Grows w1 w2) (h23 : Grows w2 w3) :
    Grows w1 w3 := by
  refine ⟨fun k v h => h23.keeps k v (h12.keeps k v h), ?_⟩
  intro k v h
  rcases h23.added k v h with h' | h'
  · exact h12.added k v h'
  · exact Or.inr h'

theorem Grows.ofStore (w : World) (s : Str) (fdes : FieldDescription)
    (hmiss : StdMap.find w.processed_templates s = none) :
    Grows w (storeEntry w s (generatedId fdes s)) := by
  refine ⟨?_, ?_⟩
  · intro k v hk
    have hne : k ≠ s := by rintro rfl; rw [hmiss] at hk; cases hk
    show StdMap.find (StdMap.assign _ _ _) k = some v
    rw [StdMap.find_assign_ne _ _ _ _ hne]; exact hk
  · intro k v hk
    by_cases hks : k = s
    · subst hks
      have : StdMap.find (StdMap.assign w.processed_templates k (generatedId fdes k)) k
          = some v := hk
      rw [StdMap.find_assign_self] at this
      cases this
      exact Or.inr ⟨fdes, rfl⟩
    · have : StdMap.find (StdMap.assign w.processed_templates s (generatedId fdes s)) k
          = some v := hk
      rw [StdMap.find_assign_ne _ _ _ _ hks] at this
      exact Or.inl this

theorem traverseFields_grows
    (visit : Str → FieldDescription → World → Option (Bool × FieldDescription × World))
    (hvisit : ∀ s fdes w r, visit s fdes w = some r → Grows w r.2.2) :
    ∀ fs w w', traverseFields visit fs w = some w' → Grows w w' := by
  intro fs
  induction fs with
  | nil =>
    intro w w' h
    simp only [traverseFields, Option.some.injEq] at h
    subst h
    exact Grows.same w
  | cons f fs ih =>
    intro w w' h
    simp only [traverseFields] at h
    cases hv : visit f.in_name { FieldDescription.fresh f.container_class false with
        name := f.name } w with
    | none => rw [hv] at h; cases h
    | some r =>
      rw [hv] at h
      exact (hvisit _ _ _ _ hv).chain (ih _ _ h)

/-- The first steps of `ProcessTemplate` on a miss: the entry is stored, and the members are
traversed in the state that holds it. -/
theorem ProcessTemplateFuel_miss (insts : Instantiations) (fuel : Nat) (s : Str)
    (fdes : FieldDescription) (w : World)
    (hmiss : StdMap.find w.processed_templates s = none) :
    ProcessTemplateFuel insts (fuel + 1) s fdes w
      = (traverseFields (ProcessTemplateFuel insts fuel) (insts.fieldsOf s)
          (storeEntry w s (generatedId fdes s))).bind (fun w2 =>
            some (false, finishTemplate fdes (StdMap.subscript w2.processed_templates s []).1,
              { processed_templates := (StdMap.subscript w2.processed_templates s []).2,
                printClass_calls := w2.printClass_calls ++ [(s, generatedId fdes s)] })) := by
  have hsub : StdMap.subscript
      (StdMap.assign w.processed_templates s (generatedId fdes s)) s []
      = (generatedId fdes s, StdMap.assign w.processed_templates s (generatedId fdes s)) :=
    StdMap.subscript_of_find [] (StdMap.find_assign_self _ _ _)
  simp only [generatedId] at hsub
  simp only [ProcessTemplateFuel, hmiss, Option.isNone_none, if_true, hsub, storeEntry,
    generatedId, finishTemplate]
  cases traverseFields (ProcessTemplateFuel insts fuel) (insts.fieldsOf s) _ <;> rfl

/-- Whatever the fuel, a call of `ProcessTemplate` that returns has let the registry grow. -/
theorem ProcessTemplateFuel_grows (insts : Instantiations) :
    ∀ fuel s fdes w r, ProcessTemplateFuel insts fuel s fdes w = some r → Grows w r.2.2 := by
  intro fuel
  induction fuel with
  | zero => intro s fdes w r h; simp [ProcessTemplateFuel] at h
  | succ fuel ih =>
    intro s fdes w r h
    cases hfind : StdMap.find w.processed_templates s with
    | some v =>
      rw [ProcessTemplateFuel_hit insts fuel s fdes w v hfind] at h
      cases h
      exact Grows.same w
    | none =>
      rw [ProcessTemplateFuel_miss insts fuel s fdes w hfind] at h
      cases htr : traverseFields (ProcessTemplateFuel insts fuel) (insts.fieldsOf s)
          (storeEntry w s (generatedId fdes s)) with
      | none => rw [htr] at h; cases h
      | some w2 =>
        rw [htr] at h
        simp only [Option.some_bind, Option.some.injEq] at h
        subst h
        have hg : Grows (storeEntry w s (generatedId fdes s)) w2 :=
          traverseFields_grows _ ih _ _ _ htr
        have hs : StdMap.find w2.processed_templates s = some (generatedId fdes s) :=
          hg.keeps _ _ (StdMap.find_assign_self _ _ _)
        have hg2 := (Grows.ofStore w s fdes hfind).chain hg
        simp only [StdMap.subscript_of_find [] hs]
        exact ⟨hg2.keeps, hg2.added⟩

end FieldVisitor

namespace FieldVisitor

theorem Reachable.grows (insts : Instantiations) (w : World) (h : Reachable insts w) :
    Grows ⟨[], []⟩ w := by
  induction h with
  | empty => exact Grows.same _
  | call w s fdes r _ hcall ih => exact ih.chain (ProcessTemplateFuel_grows insts _ s fdes w r hcall)

/-- The registry after the members `B<int> m_A;` and `A_B<int> m;` of a class `C` have been
processed from the empty registry. -/
theorem reachable_two_members :
    Reachable []
      ⟨[("A_B<int>".toList, "C_m_A_B_int_".toList), ("B<int>".toList, "C_m_A_B_int_".toList)],
        [("B<int>".toList, "C_m_A_B_int_".toList), ("A_B<int>".toList, "C_m_A_B_int_".toList)]⟩ := by
  have h1 : ProcessTemplate [] "B<int>".toList
      { FieldDescription.fresh "C".toList false with name := "m_A".toList } ⟨[], []⟩
      = some (false,
          finishTemplate { FieldDescription.fresh "C".toList false with name := "m_A".toList }
            "C_m_A_B_int_".toList,
          ⟨[("B<int>".toList, "C_m_A_B_int_".toList)],
            [("B<int>".toList, "C_m_A_B_int_".toList)]⟩) := by decide
  have h2 : ProcessTemplate [] "A_B<int>".toList
      { FieldDescription.fresh "C".toList false with name := "m".toList }
      ⟨[("B<int>".toList, "C_m_A_B_int_".toList)], [("B<int>".toList, "C_m_A_B_int_".toList)]⟩
      = some (false,
          finishTemplate { FieldDescription.fresh "C".toList false with name := "m".toList }
            "C_m_A_B_int_".toList,
          ⟨[("A_B<int>".toList, "C_m_A_B_int_".toList),
              ("B<int>".toList, "C_m_A_B_int_".toList)],
            [("B<int>".toList, "C_m_A_B_int_".toList),
              ("A_B<int>".toList, "C_m_A_B_int_".toList)]⟩) := by decide
  exact Reachable.call _ _ _ _ (Reachable.call _ _ _ _ Reachable.empty h1) h2

/-- C14 (counterexample): the members `B<int> m_A;` and `A_B<int> m;` of a class `C`,
processed one after the other from the empty registry, leave a reachable registry in which
the two distinct spellings "B<int>" and "A_B<int>" are mapped to the same generated
identifier "C_m_A_B_int_". -/
theorem distinct_spellings_share_identifier :
    Reachable []
      ⟨[("A_B<int>".toList, "C_m_A_B_int_".toList), ("B<int>".toList, "C_m_A_B_int_".toList)],
        [("B<int>".toList, "C_m_A_B_int_".toList), ("A_B<int>".toList, "C_m_A_B_int_".toList)]⟩ ∧
    "B<int>".toList ≠ "A_B<int>".toList ∧
    StdMap.find
      [("A_B<int>".toList, "C_m_A_B_int_".toList), ("B<int>".toList, "C_m_A_B_int_".toList)]
      "B<int>".toList = some "C_m_A_B_int_".toList ∧
    StdMap.find
      [("A_B<int>".toList, "C_m_A_B_int_".toList), ("B<int>".toList, "C_m_A_B_int_".toList)]
      "A_B<int>".toList = some "C_m_A_B_int_".toList := by
  exact ⟨reachable_two_members, by decide, by decide, by decide⟩

/-- C14 (amended): in every registry state reachable from the empty registry by calls to
`ProcessTemplate`, the identifier stored for a spelling `s` is `C ++ "_" ++ N ++ "_" ++
mangle_string s` for the containing class `C` and member name `N` of some descriptor; two
spellings of the same length whose sanitized forms `mangle_string s` differ are never mapped
to the same identifier; and a further call never changes an entry. -/
theorem registry_identifiers (insts : Instantiations) (w : World) (h : Reachable insts w) :
    (∀ s id, StdMap.find w.processed_templates s = some id →
      ∃ d : FieldDescription,
        id = d.container_class ++ "_".toList ++ d.name ++ "_".toList ++ mangle_string s) ∧
    (∀ s1 s2 id1 id2, StdMap.find w.processed_templates s1 = some id1 →
      StdMap.find w.processed_templates s2 = some id2 → s1.length = s2.length →
      mangle_string s1 ≠ mangle_string s2 → id1 ≠ id2) ∧
    (∀ s fdes r, ProcessTemplate insts s fdes w = some r →
      ∀ k v, StdMap.find w.processed_templates k = some v →
        StdMap.find r.2.2.processed_templates k = some v) := by
  have hform : ∀ s id, StdMap.find w.processed_templates s = some id →
      ∃ d : FieldDescription,
        id = d.container_class ++ "_".toList ++ d.name ++ "_".toList ++ mangle_string s := by
    intro s id hs
    rcases (Reachable.grows insts w h).added s id hs with h0 | ⟨d, hd⟩
    · simp [StdMap.find] at h0
    · exact ⟨d, hd⟩
  refine ⟨hform, ?_, ?_⟩
  · intro s1 s2 id1 id2 h1 h2 hlen hne heq
    obtain ⟨d1, e1⟩ := hform s1 id1 h1
    obtain ⟨d2, e2⟩ := hform s2 id2 h2
    rw [e1, e2] at heq
    have hl : (mangle_string s1).length = (mangle_string s2).length := by
      rw [mangle_string_length, mangle_string_length, hlen]
    exact hne (List.append_inj' heq hl).2
  · intro s fdes r hr
    exact (ProcessTemplateFuel_grows insts _ s fdes w r hr).keeps

theorem registry_identifiers_witness :
    Reachable []
      ⟨[("A_B<int>".toList, "C_m_A_B_int_".toList), ("B<int>".toList, "C_m_A_B_int_".toList)],
        [("B<int>".toList, "C_m_A_B_int_".toList), ("A_B<int>".toList, "C_m_A_B_int_".toList)]⟩ ∧
    (∀ s id, StdMap.find
        [("A_B<int>".toList, "C_m_A_B_int_".toList), ("B<int>".toList, "C_m_A_B_int_".toList)]
        s = some id →
      ∃ d : FieldDescription,
        id = d.container_class ++ "_".toList ++ d.name ++ "_".toList ++ mangle_string s) :=
  ⟨reachable_two_members, (registry_identifiers []
    ⟨[("A_B<int>".toList, "C_m_A_B_int_".toList), ("B<int>".toList, "C_m_A_B_int_".toList)],
      [("B<int>".toList, "C_m_A_B_int_".toList), ("A_B<int>".toList, "C_m_A_B_int_".toList)]⟩
    reachable_two_members).1⟩

end FieldVisitor

namespace FieldVisitor

theorem NestedState.keeps (insts : Instantiations) (w0 w : World)
    (h : NestedState insts w0 w) :
    ∀ k v, StdMap.find w0.processed_templates k = some v →
      StdMap.find w.processed_templates k = some v := by
  induction h with
  | start => exact fun _ _ h => h
  | returned w fuel s fdes r _ hcall ih =>
    exact fun k v hk => (ProcessTemplateFuel_grows insts fuel s fdes w r hcall).keeps k v (ih k v hk)
  | entered w s fdes _ hmiss ih =>
    exact fun k v hk => (Grows.ofStore w s fdes hmiss).keeps k v (ih k v hk)

/-- C17: `ProcessTemplate` always returns, for every finite list of instantiations with
arbitrary (cyclic and self-) references among them.  On a miss the entry is stored before
the members are traversed: the traversal runs from the state that holds the entry, and in
every state in which a nested visit can begin from there a call for the same spelling takes
the hit path and returns the state as it is, with no traversal and no emission.  A
self-referential instantiation and two mutually referring ones are each emitted once. -/
theorem store_before_recurse_terminates (insts : Instantiations) (s : Str)
    (fdes : FieldDescription) (w : World) :
    (∃ d w', ProcessTemplate insts s fdes w = some (false, d, w')) ∧
    (StdMap.find w.processed_templates s = none →
      (∀ fuel, ProcessTemplateFuel insts (fuel + 1) s fdes w
        = (traverseFields (ProcessTemplateFuel insts fuel) (insts.fieldsOf s)
            (storeEntry w s (generatedId fdes s))).bind (fun w2 =>
              some (false,
                finishTemplate fdes (StdMap.subscript w2.processed_templates s []).1,
                { processed_templates := (StdMap.subscript w2.processed_templates s []).2,
                  printClass_calls := w2.printClass_calls ++ [(s, generatedId fdes s)] }))) ∧
      (∀ w1, NestedState insts (storeEntry w s (generatedId fdes s)) w1 →
        ∀ fuel fdes', ProcessTemplateFuel insts (fuel + 1) s fdes' w1
          = some (false, finishTemplate fdes' (generatedId fdes s), w1))) ∧
    (ProcessTemplate
        [("Node<int>".toList, [⟨"Node".toList, "next".toList, "Node<int>".toList⟩])]
        "Node<int>".toList
        { FieldDescription.fresh "List".toList false with name := "head".toList }
        ⟨[], []⟩).map (fun r => r.2.2)
      = some ⟨[("Node<int>".toList, "List_head_Node_int_".toList)],
          [("Node<int>".toList, "List_head_Node_int_".toList)]⟩ ∧
    (ProcessTemplate
        [("A<int>".toList, [⟨"A".toList, "b".toList, "B<int>".toList⟩]),
         ("B<int>".toList, [⟨"B".toList, "a".toList, "A<int>".toList⟩])]
        "A<int>".toList { FieldDescription.fresh "C".toList false with name := "m".toList }
        ⟨[], []⟩).map (fun r => r.2.2)
      = some ⟨[("A<int>".toList, "C_m_A_int_".toList),
            ("B<int>".toList, "A_b_B_int_".toList)],
          [("B<int>".toList, "A_b_B_int_".toList),
            ("A<int>".toList, "C_m_A_int_".toList)]⟩ := by
  refine ⟨?_, ?_, by decide, by decide⟩
  · obtain ⟨w', h, _⟩ := ProcessTemplate_returns insts s fdes w
    exact ⟨_, w', h⟩
  · intro hmiss
    refine ⟨fun fuel => ProcessTemplateFuel_miss insts fuel s fdes w hmiss, ?_⟩
    intro w1 hw1 fuel fdes'
    have hs : StdMap.find w1.processed_templates s = some (generatedId fdes s) :=
      NestedState.keeps insts _ w1 hw1 s _ (StdMap.find_assign_self _ _ _)
    exact ProcessTemplateFuel_hit insts fuel s fdes' w1 _ hs

end FieldVisitor

namespace FieldVisitor

/-- The normalization begins with the keyword-stripping step; the two repairs of `_Bool`
work on its result. -/
theorem normalizeSpelling_eq_stripKeywords (printed : Str) :
    normalizeSpelling printed
      = StdString.replaceWhile " _Bool".toList 6 " bool".toList
          (match StdString.find (stripKeywords printed) "<_Bool".toList with
            | some pos => StdString.replace (stripKeywords printed) pos 6 "<bool".toList
            | none => stripKeywords printed).length
          (match StdString.find (stripKeywords printed) "<_Bool".toList with
            | some pos => StdString.replace (stripKeywords printed) pos 6 "<bool".toList
            | none => stripKeywords printed) := rfl

/-- A spelling in which the texts "class " and "struct " do not occur at all passes through
the keyword-stripping step unchanged. -/
theorem stripKeywords_of_no_occurrence (printed : Str)
    (hclass : StdString.find printed "class ".toList = none)
    (hstruct : StdString.find printed "struct ".toList = none) :
    stripKeywords printed = printed := by
  have h1 : ∀ fuel, StdString.eraseWhile "class ".toList 6 fuel printed = printed := by
    intro fuel
    cases fuel with
    | zero => rfl
    | succ fuel => simp only [StdString.eraseWhile, hclass]
  have h2 : ∀ fuel, StdString.eraseWhile "struct ".toList 7 fuel printed = printed := by
    intro fuel
    cases fuel with
    | zero => rfl
    | succ fuel => simp only [StdString.eraseWhile, hstruct]
  simp only [stripKeywords, h1, h2]

/-- Where the keywords do stand as tokens they are recognized as such and stripped. -/
theorem keyword_tokens_are_stripped :
    StdString.hasKeywordToken "class".toList "Tmpl<class Foo, struct Bar>".toList = true ∧
    StdString.hasKeywordToken "struct".toList "Tmpl<class Foo, struct Bar>".toList = true ∧
    stripKeywords "Tmpl<class Foo, struct Bar>".toList = "Tmpl<Foo, Bar>".toList := by
  refine ⟨by decide, by decide, by decide⟩

/-- C21 (the code at the failing input): in the spelling "Tmpl<Myclass *>" neither "class"
nor "struct" occurs as a whole keyword token, the letters of "class" being the end of the
identifier `Myclass`; the keyword loop searches for the text "class " anywhere, finds it at
position 7 and erases it, so the keyword-stripping step returns "Tmpl<My*>" and not the
spelling, and `VisitRecordType` uses "Tmpl<My*>" as the registry key. -/
theorem keyword_loop_cuts_identifier :
    StdString.hasKeywordToken "class".toList "Tmpl<Myclass *>".toList = false ∧
    StdString.hasKeywordToken "struct".toList "Tmpl<Myclass *>".toList = false ∧
    StdString.find "Tmpl<Myclass *>".toList "class ".toList = some 7 ∧
    stripKeywords "Tmpl<Myclass *>".toList = "Tmpl<My*>".toList ∧
    stripKeywords "Tmpl<Myclass *>".toList ≠ "Tmpl<Myclass *>".toList ∧
    normalizeSpelling "Tmpl<Myclass *>".toList = "Tmpl<My*>".toList ∧
    (VisitRecordType []
        ⟨⟨"Tmpl".toList, true, none, some true⟩, "Tmpl<Myclass *>".toList⟩
        { FieldDescription.fresh "C".toList false with name := "m".toList } ⟨[], []⟩).map
      (fun r => (r.2.1.mangled_type_name, r.2.2.processed_templates))
      = some ("C_m_Tmpl_My__".toList, [("Tmpl<My*>".toList, "C_m_Tmpl_My__".toList)]) := by
  refine ⟨by decide, by decide, by decide, by decide, by decide, by decide, by decide⟩

end FieldVisitor
